import Mathlib

/-!
# ReSynth: shallow embedding and verification

Embedding of the ReSynth chunking → retrieval → citation pipeline
(`src/processors/text_processor.py`, `src/processors/chunker.py`,
`src/resynth/retrieval/query_processor.py`, `src/resynth/retrieval/retriever.py`,
`src/synthesis/citation_formatter.py`).

Modelling conventions:
* Python `str` is modelled as `List Char` (a sequence of code points); the regex
  character classes `\w`, `\s`, `\d` are modelled over their ASCII ranges, which
  is the range exercised by the properties below.
* Python floats that are only ordered and averaged (similarity scores) are
  modelled as `ℚ`.
* Code that can raise (`range()` with a zero step) returns `Option`, with `none`
  standing for the raised exception.
* External collaborators (the vector store, the spaCy key-phrase extractor) are
  function parameters of the definitions that call them.
-/

namespace ReSynth

/-- Python strings as lists of code points. -/
abbrev Str := List Char

/-- Python `\s` over ASCII: space, tab, newline, carriage return, vertical tab, form feed. -/
def isPySpace (c : Char) : Bool :=
  c == ' ' || c == '\t' || c == '\n' || c == '\r' || c == '\x0b' || c == '\x0c'

/-- Python `\w` over ASCII: alphanumeric or underscore. -/
def isWordChar (c : Char) : Bool := c.isAlphanum || c == '_'

/-- Python `\d` over ASCII. -/
def isDigitChar (c : Char) : Bool := c.isDigit

/-- Characters kept by `clean_text`'s filter `[^\w\s\.\,\;\:\!\?\-\(\)\[\]\{\}\"\'\/\\]`. -/
def allowedChar (c : Char) : Bool :=
  isWordChar c || isPySpace c || ".,;:!?-()[]\x7b\x7d\"'/\\".toList.contains c

/-- `re.sub(r'\s+', ' ', text)`: each maximal whitespace run becomes one space. -/
def collapseWs : Str → Str
  | [] => []
  | [c] => if isPySpace c then [' '] else [c]
  | c :: d :: rest =>
    if isPySpace c then
      if isPySpace d then collapseWs (d :: rest)
      else ' ' :: collapseWs (d :: rest)
    else c :: collapseWs (d :: rest)

/-- `re.sub(r'[^\w\s\.\,\;\:\!\?\-\(\)\[\]\{\}\"\'\/\\]', ' ', text)`. -/
def sanitizeChars (l : Str) : Str := l.map (fun c => if allowedChar c then c else ' ')

/-- Drop a trailing whitespace run (helper for `str.strip()`). -/
def dropTrailWs : Str → Str
  | [] => []
  | c :: rest =>
    let r := dropTrailWs rest
    if isPySpace c ∧ r = [] then [] else c :: r

/-- Python `str.strip()`. -/
def pyStrip (l : Str) : Str := dropTrailWs (l.dropWhile isPySpace)

/-- `TextProcessor.clean_text` (the empty string short-circuit coincides with the
pipeline applied to the empty list). -/
def clean_text (t : Str) : Str :=
  pyStrip (collapseWs (sanitizeChars (collapseWs t)))

/-- Driver of `re.sub(pat, '', text)` for a matcher returning the length of the
match at the head of the given suffix (the patterns used here never match the
empty string). The fuel is initialised with the length of the text. -/
def subDelF (m : Str → Option Nat) : Nat → Str → Str
  | _, [] => []
  | 0, l => l
  | fuel + 1, c :: rest =>
    match m (c :: rest) with
    | some (n + 1) => subDelF m fuel (rest.drop n)
    | _ => c :: subDelF m fuel rest

/-- `re.sub(pat, '', text)` with empty replacement. -/
def subDel (m : Str → Option Nat) (l : Str) : Str := subDelF m l.length l

/-- Helper for `\[\d+(?:,\s*\d+)*\]`: match `(?:,\s*\d+)*\]`, returning consumed length. -/
def matchBrackGroups : Nat → Str → Option Nat
  | _, ']' :: _ => some 1
  | fuel + 1, ',' :: rest =>
    let ws := rest.takeWhile isPySpace
    let rest1 := rest.drop ws.length
    let ds := rest1.takeWhile isDigitChar
    if ds = [] then none
    else
      match matchBrackGroups fuel (rest1.drop ds.length) with
      | some n => some (1 + ws.length + ds.length + n)
      | none => none
  | _, _ => none

/-- Matcher for the citation pattern `\[\d+(?:,\s*\d+)*\]`. -/
def matchCiteBracket (l : Str) : Option Nat :=
  match l with
  | '[' :: rest =>
    let ds := rest.takeWhile isDigitChar
    if ds = [] then none
    else
      match matchBrackGroups rest.length (rest.drop ds.length) with
      | some n => some (1 + ds.length + n)
      | none => none
  | _ => none

/-- Four consecutive ASCII digits occur in the string. -/
def hasFourDigitRun : Str → Bool
  | a :: b :: c :: d :: rest =>
    (isDigitChar a && isDigitChar b && isDigitChar c && isDigitChar d) ||
      hasFourDigitRun (b :: c :: d :: rest)
  | _ => false

/-- Matcher for `\([^)]*\d{4}[^)]*\)`: spans from `(` to the first following `)`,
provided the enclosed span contains four consecutive digits. -/
def matchParenYear (l : Str) : Option Nat :=
  match l with
  | '(' :: rest =>
    let seg := rest.takeWhile (fun c => !(c == ')'))
    if rest.drop seg.length = [] then none
    else if hasFourDigitRun seg then some (seg.length + 2) else none
  | _ => none

/-- Case-insensitive comparison against a lowercase letter (`re.IGNORECASE`). -/
def lowEq (c a : Char) : Bool := c.toLower == a

/-- Matcher for `\w+\s+et\s+al\.\s*\(\d{4}\)` with `re.IGNORECASE`. The maximal
runs taken here coincide with the backtracking search because the first sets of
adjacent subpatterns are disjoint. -/
def matchEtAl (l : Str) : Option Nat :=
  let w1 := l.takeWhile isWordChar
  if w1 = [] then none else
  let r1 := l.drop w1.length
  let sp1 := r1.takeWhile isPySpace
  if sp1 = [] then none else
  match r1.drop sp1.length with
  | e :: t :: r2 =>
    if lowEq e 'e' && lowEq t 't' then
      let sp2 := r2.takeWhile isPySpace
      if sp2 = [] then none else
      match r2.drop sp2.length with
      | a :: lc :: dot :: r3 =>
        if lowEq a 'a' && lowEq lc 'l' && dot == '.' then
          let sp3 := r3.takeWhile isPySpace
          match r3.drop sp3.length with
          | '(' :: d1 :: d2 :: d3 :: d4 :: ')' :: _ =>
            if isDigitChar d1 && isDigitChar d2 && isDigitChar d3 && isDigitChar d4 then
              some (w1.length + sp1.length + 2 + sp2.length + 3 + sp3.length + 6)
            else none
          | _ => none
        else none
      | _ => none
    else none
  | _ => none

/-- `TextProcessor.remove_citations`. -/
def remove_citations (t : Str) : Str :=
  pyStrip (collapseWs (subDel matchEtAl (subDel matchParenYear (subDel matchCiteBracket t))))

/-- `TextProcessor.preprocess_paper_content`. -/
def preprocess_paper_content (title abstract content : Str) : Str :=
  let full := "Title: ".toList ++ title ++ "\n\nAbstract: ".toList ++ abstract ++
    (if content = [] then [] else "\n\nContent: ".toList ++ content)
  remove_citations (clean_text full)

/-- Index of the last `'\n'` in a string, if any. -/
def lastNlIdx : Str → Option Nat
  | [] => none
  | c :: rest =>
    match lastNlIdx rest with
    | some j => some (j + 1)
    | none => if c == '\n' then some 0 else none

/-- Index of the last occurrence of `"\r\n"` in a string, if any. -/
def lastCrNlIdx : Str → Option Nat
  | c :: d :: rest =>
    (match lastCrNlIdx (d :: rest) with
    | some j => some (j + 1)
    | none => if c == '\r' && d == '\n' then some 0 else none)
  | _ => none

/-- Match the paragraph separator `\n\s*\n|\r\n\s*\r\n` at the head of the string,
returning the match length (the greedy `\s*` backtracks to end on the last
newline of the whitespace run). -/
def matchParaSep (l : Str) : Option Nat :=
  match l with
  | '\n' :: rest =>
    (match lastNlIdx (rest.takeWhile isPySpace) with
    | some j => some (j + 2)
    | none => none)
  | '\r' :: '\n' :: rest =>
    (match lastCrNlIdx (rest.takeWhile isPySpace) with
    | some j => some (j + 4)
    | none => none)
  | _ => none

/-- `re.split(r'\n\s*\n|\r\n\s*\r\n', text)`, fuel-structural scan. -/
def paraSplitF : Nat → Str → Str → List Str
  | _, acc, [] => [acc.reverse]
  | 0, acc, l => [acc.reverse ++ l]
  | fuel + 1, acc, c :: rest =>
    match matchParaSep (c :: rest) with
    | some (n + 1) => acc.reverse :: paraSplitF fuel [] (rest.drop n)
    | _ => paraSplitF fuel (c :: acc) rest

/-- Split into paragraph candidate parts. -/
def pySplitParas (l : Str) : List Str := paraSplitF l.length [] l

/-- `TextProcessor.extract_paragraphs`. -/
def extract_paragraphs (t : Str) : List Str :=
  (pySplitParas t).filterMap (fun p =>
    let cleaned := clean_text p
    if cleaned ≠ [] ∧ 50 < cleaned.length then some cleaned else none)

/-! ## Chunker (`src/processors/chunker.py`) -/

/-- The `Paper` dataclass fields the chunker reads (the base dataclass always
declares `arxiv_id` and `pubmed_id`, both defaulting to `None`). -/
structure Paper where
  title : Str
  authors : List Str := []
  abstract : Str
  content : Option Str := none
  url : Option Str := none
  arxiv_id : Option Str := none
  pubmed_id : Option Str := none

/-- The `Chunk` dataclass (its `metadata` dict duplicates the explicit paper
fields and is inspected by no claim, so it is not carried separately). -/
structure Chunk where
  text : Str
  chunk_id : Str
  paper_title : Str
  paper_url : Option Str
  paper_authors : List Str
  start_char : Nat
  end_char : Nat
deriving DecidableEq

/-- Decimal digit characters, least significant first (fuel-structural). -/
def digitChar (d : Nat) : Char :=
  match d with
  | 0 => '0' | 1 => '1' | 2 => '2' | 3 => '3' | 4 => '4'
  | 5 => '5' | 6 => '6' | 7 => '7' | 8 => '8' | _ => '9'

def natDigitsRev : Nat → Nat → List Char
  | 0, _ => []
  | fuel + 1, n => if n = 0 then [] else digitChar (n % 10) :: natDigitsRev fuel (n / 10)

/-- Python `str(n)` for a nonnegative int. -/
def natDigits (n : Nat) : Str :=
  if n = 0 then ['0'] else (natDigitsRev n n).reverse

/-- The f-string interpolation of a possibly-`None` string attribute. -/
def pyOptStr : Option Str → Str
  | some s => s
  | none => "None".toList

/-- `getattr(paper, 'arxiv_id') or getattr(paper, 'pubmed_id', 'unknown')`: the
`Paper` dataclass always has both attributes, so a falsy `arxiv_id` falls
through to the `pubmed_id` value (which may itself be `None`). -/
def paperIdOf (p : Paper) : Str :=
  match p.arxiv_id with
  | some s => if s = [] then pyOptStr p.pubmed_id else s
  | none => pyOptStr p.pubmed_id

/-- `f"{paper_id}_{start_char}_{end_char}"`. -/
def chunkIdOf (pid : Str) (s e : Nat) : Str :=
  pid ++ '_' :: natDigits s ++ '_' :: natDigits e

/-- `SemanticChunker._create_chunk`. -/
def _create_chunk (p : Paper) (text : Str) (s e : Nat) : Chunk :=
  { text := text
    chunk_id := chunkIdOf (paperIdOf p) s e
    paper_title := p.title
    paper_url := p.url
    paper_authors := p.authors
    start_char := s
    end_char := e }

/-- Constructor arguments of `SemanticChunker`. -/
structure ChunkerConfig where
  chunk_size : Nat := 1000
  chunk_overlap : Nat := 200

/-- `range(0, stop, step)` for positive `step`. -/
def pyRangeBy (stop step : Nat) : List Nat :=
  (List.range ((stop + step - 1) / step)).map (· * step)

/-- `SemanticChunker._simple_chunk`; `none` models the `ValueError` raised by
`range(0, len(text), 0)` when `chunk_size == chunk_overlap`, and a negative
step yields an empty `range`, hence no chunks. -/
def _simple_chunk (cfg : ChunkerConfig) (p : Paper) (text : Str) : Option (List Chunk) :=
  if cfg.chunk_size = cfg.chunk_overlap then none
  else if cfg.chunk_size < cfg.chunk_overlap then some []
  else
    some ((pyRangeBy text.length (cfg.chunk_size - cfg.chunk_overlap)).filterMap
      (fun i =>
        let ct := (text.drop i).take cfg.chunk_size
        if pyStrip ct = [] then none else some (_create_chunk p ct i (i + ct.length))))

/-- Loop state of the paragraph-packing loop in `chunk_paper`. -/
structure ParaState where
  chunks : List Chunk
  current : Str
  start : Nat

/-- One iteration of the paragraph loop of `SemanticChunker.chunk_paper`. -/
def paraStep (cfg : ChunkerConfig) (p : Paper) (st : ParaState) (paragraph : Str) : ParaState :=
  if st.current.length + paragraph.length + 2 ≤ cfg.chunk_size then
    { st with
      current := if st.current = [] then paragraph else st.current ++ '\n' :: '\n' :: paragraph }
  else
    let chunks' :=
      if pyStrip st.current = [] then st.chunks
      else st.chunks ++ [_create_chunk p st.current st.start (st.start + st.current.length)]
    if 0 < cfg.chunk_overlap ∧ cfg.chunk_overlap < st.current.length then
      let overlap_text := st.current.drop (st.current.length - cfg.chunk_overlap)
      let current' := overlap_text ++ '\n' :: '\n' :: paragraph
      { chunks := chunks'
        current := current'
        start := st.start + current'.length - overlap_text.length }
    else
      { chunks := chunks', current := paragraph, start := st.start + paragraph.length }

/-- The preprocessed text of a paper, as computed at the top of `chunk_paper`
(`paper.content or ""` drops a missing content). -/
def preprocessOf (p : Paper) : Str :=
  preprocess_paper_content p.title p.abstract (p.content.getD [])

/-- `SemanticChunker.chunk_paper`. -/
def chunk_paper (cfg : ChunkerConfig) (p : Paper) : Option (List Chunk) :=
  let full_text := preprocessOf p
  let paragraphs := extract_paragraphs full_text
  if paragraphs = [] then _simple_chunk cfg p full_text
  else
    let st := paragraphs.foldl (paraStep cfg p) ⟨[], [], 0⟩
    some
      (if pyStrip st.current = [] then st.chunks
       else st.chunks ++ [_create_chunk p st.current st.start (st.start + st.current.length)])

/-- `SemanticChunker.chunk_multiple_papers`: a paper whose chunking raises is
logged and skipped. -/
def chunk_multiple_papers (cfg : ChunkerConfig) (papers : List Paper) : List Chunk :=
  papers.foldl (fun acc p => acc ++ ((chunk_paper cfg p).getD [])) []

/-! ## Query expansion (`src/resynth/retrieval/query_processor.py`) -/

/-- Python `str.lower()` (ASCII behaviour). -/
def pyLower (l : Str) : Str := l.map Char.toLower

/-- `QueryProcessor._create_query_variations`. -/
def _create_query_variations (key_phrase original_query : Str) : List Str :=
  let patterns : List Str := [
    "research on ".toList ++ key_phrase,
    key_phrase ++ " studies".toList,
    key_phrase ++ " analysis".toList,
    key_phrase ++ " methods".toList,
    key_phrase ++ " applications".toList,
    "recent ".toList ++ key_phrase,
    key_phrase ++ " overview".toList]
  (patterns.filter (fun pat => pyLower pat ≠ pyLower original_query)).take 2

/-- Inner loop of `expand_query` over one phrase's variations. -/
def addVariations (variations : List Str) (acc : List Str) (maxExp : Nat) : List Str :=
  variations.foldl (fun acc v => if v ∉ acc ∧ acc.length < maxExp then acc ++ [v] else acc) acc

/-- `QueryProcessor.expand_query`; the spaCy-derived key phrases produced by
`TextProcessor.extract_key_phrases` are an external NLP collaborator and appear
as the `key_phrases` parameter. -/
def expand_query (key_phrases : List Str) (query : Str) (max_expansions : Nat) : List Str :=
  if query = [] then []
  else
    let expanded := key_phrases.foldl (fun acc phrase =>
      let acc := if phrase ∉ acc then acc ++ [phrase] else acc
      addVariations (_create_query_variations phrase query) acc max_expansions) [query]
    expanded.take max_expansions

/-- `QueryProcessor.preprocess_query`. -/
def preprocess_query (q : Str) : Str :=
  if q = [] then [] else pyStrip (collapseWs (clean_text q))

/-! ## Retrieval (`src/resynth/retrieval/retriever.py`) -/

/-- A retrieval result dict: `chunk_id`, `similarity`, the `paper_title` read
from its metadata, plus the flags the retriever writes into it. -/
structure RResult where
  chunk_id : Str
  paper_title : Option Str := none
  similarity : ℚ
  from_expanded_query : Bool := false
  query_metadata : Option (Str × List Str) := none
deriving DecidableEq

/-- The bundle built by `QueryProcessor.optimize_query_for_retrieval`; it is
derived through the external NLP capability, so `retrieve` receives it
abstractly. -/
structure ProcessedQuery where
  processed_query : Str
  query_type : Str
  search_terms : List Str
  expanded_queries : List Str

/-- Stable descending insertion: ties keep earlier elements first, modelling
`list.sort(key=lambda x: x['similarity'], reverse=True)`. -/
def insertDesc (x : RResult) : List RResult → List RResult
  | [] => [x]
  | y :: ys => if y.similarity ≤ x.similarity then x :: y :: ys else y :: insertDesc x ys

def sortBySimDesc (l : List RResult) : List RResult := l.foldr insertDesc []

/-- `Retriever._search_expanded_queries`; `search` is the external
`vector_store.search`. -/
def _search_expanded_queries (search : Str → Nat → ℚ → List RResult)
    (expanded_queries : List Str) (top_k : Nat) (t : ℚ)
    (existing : List RResult) : List RResult :=
  (expanded_queries.foldl (fun st eq =>
    if top_k ≤ st.1.length then st
    else
      (search eq top_k t).foldl (fun st r =>
        if r.chunk_id ∉ st.2 ∧ st.1.length < top_k then
          (st.1 ++ [{ r with from_expanded_query := true }], r.chunk_id :: st.2)
        else st) st)
    (([], existing.map (·.chunk_id)) : List RResult × List Str)).1

/-- `Config.TOP_K_RETRIEVAL` default. -/
def TOP_K_RETRIEVAL : Nat := 5

/-- `Config.SIMILARITY_THRESHOLD` default. -/
def SIMILARITY_THRESHOLD : ℚ := 7/10

/-- `Retriever.retrieve`; the Python `top_k or …` / `similarity_threshold or …`
defaults replace falsy (zero) arguments. -/
def retrieve (search : Str → Nat → ℚ → List RResult) (pq : ProcessedQuery)
    (query : Str) (top_k : Nat) (similarity_threshold : ℚ) : List RResult :=
  if query = [] then []
  else
    let top_k := if top_k = 0 then TOP_K_RETRIEVAL else top_k
    let t := if similarity_threshold = 0 then SIMILARITY_THRESHOLD else similarity_threshold
    let results := search pq.processed_query top_k t
    let results :=
      if results.length < top_k ∧ pq.expanded_queries ≠ [] then
        results ++
          _search_expanded_queries search pq.expanded_queries (top_k - results.length) t results
      else results
    ((sortBySimDesc results).take top_k).map
      (fun r => { r with query_metadata := some (pq.query_type, pq.search_terms) })

/-- The dict returned by `Retriever.validate_retrieval_quality` (keys absent in
the empty-results branch are `none` / `[]`). -/
structure QualityReport where
  valid : Bool
  reason : Option Str := none
  average_similarity : Option ℚ := none
  min_similarity : Option ℚ := none
  diversity_score : Option ℚ := none
  unique_papers : Option Nat := none
  total_results : Option Nat := none
  quality_issues : List Str := []
  suggestions : List Str := []
deriving DecidableEq

/-- Python `min` over a nonempty list of rationals. -/
def minQ : List ℚ → ℚ
  | [] => 0
  | [x] => x
  | x :: y :: rest => min x (minQ (y :: rest))

/-- `b.startsWith a` on code-point lists. -/
def listStartsWith : Str → Str → Bool
  | [], _ => true
  | _ :: _, [] => false
  | a :: as, b :: bs => a == b && listStartsWith as bs

/-- Python `needle in hay` on strings. -/
def strContains (hay needle : Str) : Bool :=
  match hay with
  | [] => needle.isEmpty
  | _ :: rest => listStartsWith needle hay || strContains rest needle

/-- `Retriever._get_quality_suggestions`. -/
def _get_quality_suggestions (issues : List Str) : List Str :=
  let sugg := issues.foldl (fun acc issue =>
    if strContains (pyLower issue) "similarity".toList then
      acc ++ ["Try more specific keywords".toList,
        "Consider using technical terms from the field".toList]
    else if strContains (pyLower issue) "diversity".toList then
      acc ++ ["Try broader search terms".toList, "Include multiple related concepts".toList]
    else acc) []
  if sugg = [] then ["Results look good!".toList] else sugg

/-- `Retriever.validate_retrieval_quality`. -/
def validate_retrieval_quality (results : List RResult) : QualityReport :=
  if results = [] then
    { valid := false
      reason := some "No results found".toList
      suggestions := ["Try a more general query".toList, "Check if papers are loaded".toList] }
  else
    let similarities := results.map (·.similarity)
    let avg := similarities.sum / (similarities.length : ℚ)
    let minSim := minQ similarities
    let titles := (results.map (fun r => r.paper_title.getD "Unknown".toList)).dedup
    let diversity := (titles.length : ℚ) / (results.length : ℚ)
    let issues :=
      (if avg < 7/10 then ["Low average similarity".toList] else []) ++
      (if minSim < 1/2 then ["Some results have very low similarity".toList] else []) ++
      (if diversity < 3/10 then ["Low diversity in results".toList] else [])
    { valid := issues.isEmpty
      average_similarity := some avg
      min_similarity := some minSim
      diversity_score := some diversity
      unique_papers := some titles.length
      total_results := some results.length
      quality_issues := issues
      suggestions := _get_quality_suggestions issues }

/-! ## Citation formatter (`src/synthesis/citation_formatter.py`) -/

/-- `paper_published_date` in chunk metadata: a `datetime` (only its year is
read) or a date string. -/
inductive PubDate
  | dt (year : Nat)
  | txt (s : Str)
deriving DecidableEq

/-- A chunk's `metadata` dict as read by the citation formatter. -/
structure ChunkMeta where
  paper_title : Option Str := none
  paper_authors : List Str := []
  paper_published_date : Option PubDate := none
  paper_journal : Option Str := none
  paper_doi : Option Str := none
  paper_url : Option Str := none
  paper_arxiv_id : Option Str := none
  paper_pubmed_id : Option Str := none
deriving DecidableEq

/-- A retrieved chunk dict as consumed by `add_citations_to_text`
(`chunk.get('text', '')`, `chunk.get('metadata', {})`). -/
structure ChunkD where
  text : Str := []
  metadata : ChunkMeta := {}
deriving DecidableEq

/-- The `Citation` dataclass. -/
structure Citation where
  paper_title : Str
  authors : List Str
  year : Option Nat := none
  journal : Option Str := none
  doi : Option Str := none
  url : Option Str := none
  arxiv_id : Option Str := none
  pubmed_id : Option Str := none
  citation_number : Option Nat := none
deriving DecidableEq

/-- `\b(19|20)\d{2}\b` matched at the head of `l`; `prevIsWord` records whether
the preceding character is a word character (left boundary). -/
def yearHere (prevIsWord : Bool) (l : Str) : Option Nat :=
  match l with
  | a :: b :: c :: d :: rest =>
    if !prevIsWord && isDigitChar c && isDigitChar d &&
        ((a == '1' && b == '9') || (a == '2' && b == '0')) &&
        (match rest with | [] => true | e :: _ => !isWordChar e) then
      some (((a.toNat - 48) * 10 + (b.toNat - 48)) * 100 + (c.toNat - 48) * 10 + (d.toNat - 48))
    else none
  | _ => none

/-- `re.search(r'\b(19|20)\d{2}\b', s)`: value of the first match. -/
def findYear : Bool → Str → Option Nat
  | _, [] => none
  | prev, c :: rest =>
    match yearHere prev (c :: rest) with
    | some y => some y
    | none => findYear (isWordChar c) rest

/-- `CitationFormatter.create_citation_from_metadata`. -/
def create_citation_from_metadata (m : ChunkMeta) : Citation :=
  let year : Option Nat :=
    match m.paper_published_date with
    | some (PubDate.dt y) => some y
    | some (PubDate.txt s) => if s = [] then none else findYear false s
    | none => none
  { paper_title := m.paper_title.getD "Unknown Title".toList
    authors := m.paper_authors
    year := year
    journal := m.paper_journal
    doi := m.paper_doi
    url := m.paper_url
    arxiv_id := m.paper_arxiv_id
    pubmed_id := m.paper_pubmed_id }

/-- `CitationFormatter.create_citation_map` (a Python dict in insertion order). -/
def create_citation_map (chunks : List ChunkD) : List (Str × Citation) :=
  chunks.foldl (fun cmap ch =>
    match ch.metadata.paper_title with
    | some t =>
      if t ≠ [] ∧ t ∉ cmap.map Prod.fst then
        cmap ++ [(t, create_citation_from_metadata ch.metadata)]
      else cmap
    | none => cmap) []

/-- Dict lookup in the ordered citation map. -/
def mapLookup (cmap : List (Str × Citation)) (t : Str) : Option Citation :=
  (cmap.find? (fun e => e.1 == t)).map (·.2)

/-- Mutation of the `Citation` object stored under key `t` (objects are shared,
so the map entry changes in place). -/
def mapUpdate (cmap : List (Str × Citation)) (t : Str) (c : Citation) :
    List (Str × Citation) :=
  cmap.map (fun e => if e.1 = t then (t, c) else e)

/-- `CitationFormatter.format_numeric`: assigns the next counter value when the
citation has no (truthy) number yet; threads `self.citation_counter`. -/
def format_numeric (counter : Nat) (c : Citation) : Str × Nat × Citation :=
  if c.citation_number.getD 0 = 0 then
    ('[' :: natDigits (counter + 1) ++ [']'], counter + 1,
      { c with citation_number := some (counter + 1) })
  else
    ('[' :: natDigits (c.citation_number.getD 0) ++ [']'], counter, c)

/-- `CitationFormatter.format_author_date`. -/
def format_author_date (c : Citation) : Str :=
  let author_text :=
    match c.authors with
    | [] => "Anonymous".toList
    | [a] => a
    | a :: _ :: _ => a ++ " et al.".toList
  let year_text := if c.year.getD 0 = 0 then "n.d.".toList else natDigits (c.year.getD 0)
  '(' :: (author_text ++ ", ".toList ++ year_text) ++ [')']

/-- `re.split(r'(?<=[.!?])\s+', text)`: a whitespace run preceded by `.`, `!` or
`?` separates sentences. Fuel-structural scan; `acc` is the current sentence
reversed, so its head is the previously scanned character. -/
def sentSplitF : Nat → Str → Str → List Str
  | _, acc, [] => [acc.reverse]
  | 0, acc, l => [acc.reverse ++ l]
  | fuel + 1, acc, c :: rest =>
    if isPySpace c && (match acc with | p :: _ => p == '.' || p == '!' || p == '?' | [] => false) then
      acc.reverse :: sentSplitF fuel [] (rest.dropWhile isPySpace)
    else sentSplitF fuel (c :: acc) rest

def sentSplit (text : Str) : List Str := sentSplitF text.length [] text

/-- Python `str.split()` with no argument: whitespace runs, no empty tokens. -/
def pySplitWs (l : Str) : List Str := (l.splitOnP isPySpace).filter (· ≠ [])

/-- The stopword set of `_sentence_cites_paper`. -/
def commonWords : List Str :=
  ["the", "a", "an", "and", "or", "but", "in", "on", "at", "to", "for", "of", "with",
    "by", "is", "are", "was", "were", "be", "been", "have", "has", "had", "do", "does",
    "did", "will", "would", "could", "should", "may", "might", "can", "this", "that",
    "these", "those"].map String.toList

/-- `CitationFormatter._sentence_cites_paper`: lexical-overlap test. The Python
sets are modelled by deduplicated lists (only membership and cardinality are
used). -/
def _sentence_cites_paper (sentence chunk_text : Str) : Bool :=
  let sentence_words :=
    ((pySplitWs (pyLower sentence)).dedup).filter (fun w => !(commonWords.contains w))
  let chunk_words :=
    ((pySplitWs (pyLower chunk_text)).dedup).filter (fun w => !(commonWords.contains w))
  if sentence_words = [] ∨ chunk_words = [] then false
  else
    -- `overlap / len(sentence_words) > 0.3`; the exact value of the division
    -- is the rational `mkRat overlap len`.
    decide (mkRat 3 10 <
      mkRat (sentence_words.filter (fun w => chunk_words.contains w)).length
        sentence_words.length)

/-- Scan the chunk list for the first chunk citing `sentence` whose paper is
not yet cited; returns the paper title, the rendered inline marker, and the
updated citation map and counter. A `paper_title` missing from the map cannot
occur (the map is built from the same chunks); such a chunk is skipped. -/
def scanChunks (style sentence : Str) (cited : List Str) (cmap : List (Str × Citation))
    (counter : Nat) : List ChunkD → Option (Str × Str × List (Str × Citation) × Nat)
  | [] => none
  | ch :: more =>
    match ch.metadata.paper_title with
    | some t =>
      if t ≠ [] ∧ _sentence_cites_paper sentence ch.text then
        if t ∉ cited then
          match mapLookup cmap t with
          | some c =>
            if pyLower style = "numeric".toList then
              some (t, (format_numeric counter c).1,
                mapUpdate cmap t (format_numeric counter c).2.2, (format_numeric counter c).2.1)
            else if pyLower style = "author_date".toList then
              some (t, format_author_date c, cmap, counter)
            else
              some (t, (format_numeric counter c).1,
                mapUpdate cmap t (format_numeric counter c).2.2, (format_numeric counter c).2.1)
          | none => scanChunks style sentence cited cmap counter more
        else scanChunks style sentence cited cmap counter more
      else scanChunks style sentence cited cmap counter more
    | none => scanChunks style sentence cited cmap counter more

/-- The per-sentence loop of `add_citations_to_text`. Returns the emitted
sentences, the per-sentence cited paper (the loop's `cited_papers`
bookkeeping), and the final citation map and counter. -/
def citeLoop (chunks : List ChunkD) (style : Str) :
    List Str → List Str → List (Str × Citation) → Nat →
      List Str × List (Option Str) × List (Str × Citation) × Nat
  | [], _, cmap, counter => ([], [], cmap, counter)
  | s :: rest, cited, cmap, counter =>
    match scanChunks style s cited cmap counter chunks with
    | none =>
      let r := citeLoop chunks style rest cited cmap counter
      (s :: r.1, none :: r.2.1, r.2.2)
    | some (t, marker, cmap1, counter1) =>
      let r := citeLoop chunks style rest (cited ++ [t]) cmap1 counter1
      ((s ++ ' ' :: marker) :: r.1, some t :: r.2.1, r.2.2)

/-- The numeric-style reset loop of `add_citations_to_text`: the counter is
zeroed, then each citation of the map receives the next counter value in
insertion (first-seen) order. -/
def numberFrom (k : Nat) : List (Str × Citation) → List (Str × Citation)
  | [] => []
  | e :: rest => (e.1, { e.2 with citation_number := some (k + 1) }) :: numberFrom (k + 1) rest

/-- `CitationFormatter.add_citations_to_text`; the instance state
`self.citation_counter` is threaded explicitly (in, then out). -/
def add_citations_to_text (counter : Nat) (text : Str) (chunks : List ChunkD)
    (style : Str) : Str × List (Str × Citation) × Nat :=
  if chunks = [] then (text, [], counter)
  else
    let cmap0 := create_citation_map chunks
    let cmap :=
      if pyLower style = "numeric".toList then numberFrom 0 cmap0 else cmap0
    let counter' :=
      if pyLower style = "numeric".toList then cmap0.length else counter
    let r := citeLoop chunks style (sentSplit text) [] cmap counter'
    (List.intercalate [' '] r.1, r.2.2)

/-! ## Concrete inputs used by witnesses and counterexamples -/

/-- Repeated-character string builder for concrete inputs. -/
def mkStr (c : Char) (n : Nat) : Str := List.replicate n c

/-- A paper whose preprocessed text (`Title: … Abstract: …`) is exactly 250
characters and contains no blank lines. -/
def paperA : Paper := { title := mkStr 'a' 100, abstract := mkStr 'b' 132 }

/-- A paper whose preprocessed text is 20 characters, so paragraph extraction
yields nothing and fallback chunking applies. -/
def paperTiny : Paper := { title := ['a'], abstract := ['b'] }

/-- Two distinct papers without catalog identifiers whose preprocessed texts
have equal length (78 characters). -/
def paperNoId1 : Paper := { title := mkStr 'a' 30, abstract := mkStr 'b' 30 }

def paperNoId2 : Paper := { title := mkStr 'c' 30, abstract := mkStr 'd' 30 }

/-- A paper whose 60-character preprocessed text overflows a size-50 chunker. -/
def paperB : Paper := { title := mkStr 'a' 30, abstract := mkStr 'b' 12 }

/-- Two tiny papers carrying distinct arXiv identifiers. -/
def paperIdX : Paper := { title := ['a'], abstract := ['b'], arxiv_id := some ['x'] }

def paperIdY : Paper := { title := ['a'], abstract := ['b'], arxiv_id := some ['y'] }

/-- A retrieved chunk from paper "P" used by the citation examples. -/
def chunkP : ChunkD :=
  { text := "quantum widgets rock totally".toList
    metadata := { paper_title := some "P".toList } }

/-- A draft answer whose single sentence lexically overlaps `chunkP`. -/
def sentenceQ : Str := "Quantum widgets rock.".toList

/-- Three results from two distinct papers with similarities 0.9, 0.85, 0.4. -/
def exampleResults : List RResult :=
  [{ chunk_id := "k1".toList
     paper_title := some "T1".toList
     similarity := mkRat 9 10 },
   { chunk_id := "k2".toList
     paper_title := some "T1".toList
     similarity := mkRat 17 20 },
   { chunk_id := "k3".toList
     paper_title := some "T2".toList
     similarity := mkRat 2 5 }]

/-! ## Whitespace normal form

The invariants guaranteed by a final `re.sub(r'\s+', ' ', …)` followed by
`str.strip()`, which both `clean_text` and `remove_citations` end with. -/

/-- Every whitespace character of the string is a plain space. -/
def wsOnlySpaceP (l : Str) : Prop := ∀ c ∈ l, isPySpace c → c = ' '

/-- No two adjacent whitespace characters. -/
def okRunP : Str → Prop
  | c :: d :: rest => ¬(isPySpace c ∧ isPySpace d) ∧ okRunP (d :: rest)
  | _ => True

/-- The first character, if any, is not whitespace. -/
def headNotWsP : Str → Prop
  | [] => True
  | c :: _ => ¬ isPySpace c

/-- The last character, if any, is not whitespace. -/
def lastNotWsP : Str → Prop
  | [] => True
  | [c] => ¬ isPySpace c
  | _ :: c :: rest => lastNotWsP (c :: rest)

/-- Whitespace normal form. -/
def spaceNormalP (l : Str) : Prop :=
  wsOnlySpaceP l ∧ okRunP l ∧ headNotWsP l ∧ lastNotWsP l

/-- Decimal value of a digit character. -/
def digitVal (c : Char) : Nat := c.toNat - 48

/-- Value of a digit string given least-significant first. -/
def valRev : List Char → Nat
  | [] => 0
  | c :: rest => digitVal c + 10 * valRev rest

/-! # Theorems -/

/-- Counterexample to C7 (recorded as a code bug): with
`chunk_overlap = chunk_size = 100` the fallback path computes
`range(0, len(text), 0)`, which raises `ValueError` (modelled by `none`)
instead of clamping the overlap; with `chunk_overlap > chunk_size` the range is
empty and no chunk at all is produced. -/
theorem c7_overlap_equal_size_raises :
    chunk_paper { chunk_size := 100, chunk_overlap := 100 } paperTiny = none ∧
    chunk_paper { chunk_size := 100, chunk_overlap := 150 } paperTiny = some [] := by
  decide

/-- Counterexample to C2: a 60-character preprocessed text that overflows a
size-50 chunker is emitted as a single chunk whose declared range is
`[60, 120)`, where the preprocessed text (length 60) has no characters at all,
so the chunk text does not occur at its declared range. -/
theorem c2_offset_counterexample :
    chunk_paper { chunk_size := 50, chunk_overlap := 10 } paperB =
      some [_create_chunk paperB (preprocessOf paperB) 60 120] ∧
    (preprocessOf paperB).length = 60 ∧
    ((preprocessOf paperB).drop 60).take 60 ≠ preprocessOf paperB := by
  decide

set_option maxRecDepth 8000 in
/-- Counterexample to C3's example: a paper whose preprocessed text is 250
characters with no blank lines is not fallback-chunked at all (it forms a
single usable paragraph and yields one paragraph-mode chunk), and the fallback
window procedure itself applied to that text yields a fourth window starting
at 240 (`range(0, 250, 80) = [0, 80, 160, 240]`), not the three claimed. -/
theorem c3_example_counterexample :
    (preprocessOf paperA).length = 250 ∧
    '\n' ∉ preprocessOf paperA ∧
    chunk_paper { chunk_size := 100, chunk_overlap := 20 } paperA =
      some [_create_chunk paperA (preprocessOf paperA) 250 500] ∧
    (_simple_chunk { chunk_size := 100, chunk_overlap := 20 } paperA
        (preprocessOf paperA)).map (List.map (fun c => (c.start_char, c.end_char))) ≠
      some [(0, 100), (80, 180), (160, 250)] := by
  decide

/-- Counterexample to C4: with style `"apa"` the citation counter is not reset
(only the `"numeric"` branch resets it), and the inline marker is nevertheless
rendered by `format_numeric`; two successive calls on the same instance with
identical arguments therefore produce different inline citation numbers. -/
theorem c4_counter_not_reset_counterexample :
    (add_citations_to_text 0 sentenceQ [chunkP] "apa".toList).1 ≠
      (add_citations_to_text
        (add_citations_to_text 0 sentenceQ [chunkP] "apa".toList).2.2
        sentenceQ [chunkP] "apa".toList).1 := by
  decide

/-- Counterexample to C5: the returned list starts with the original query as
passed (not the cleaned query), and the duplicate filters compare exactly, so
two case-insensitively equal entries can both be returned. -/
theorem c5_case_insensitive_counterexample :
    expand_query ["ai stuff".toList] "AI stuff".toList 3 =
      ["AI stuff".toList, "ai stuff".toList, "research on ai stuff".toList] ∧
    pyLower "AI stuff".toList = pyLower "ai stuff".toList ∧
    (expand_query [] "AI  stuff".toList 3).head? = some "AI  stuff".toList ∧
    preprocess_query "AI  stuff".toList ≠ "AI  stuff".toList := by
  decide

/-- Counterexample to C9: two distinct papers without catalog identifiers (the
shared effective paper id is the f-string rendering `"None"`) with
equal-length preprocessed texts produce chunks with identical `chunk_id`s in
one batch. -/
theorem c9_duplicate_chunk_id_counterexample :
    (chunk_multiple_papers {} [paperNoId1, paperNoId2]).map (fun c => c.chunk_id) =
      ["None_0_78".toList, "None_0_78".toList] ∧
    ¬ ((chunk_multiple_papers {} [paperNoId1, paperNoId2]).map
        (fun c => c.chunk_id)).Nodup ∧
    paperNoId1.title ≠ paperNoId2.title := by
  decide

/-! ## Generic helpers -/

theorem foldl_invariant {α σ : Type _} (f : σ → α → σ) (P : σ → Prop)
    (l : List α) (s : σ) (h0 : P s) (hstep : ∀ s a, a ∈ l → P s → P (f s a)) :
    P (l.foldl f s) := by
  induction l generalizing s with
  | nil => exact h0
  | cons a l ih =>
    exact ih (f s a) (hstep s a (by simp) h0) (fun s' b hb => hstep s' b (by simp [hb]))

theorem head?_append_left {α : Type _} {l l' : List α} {q : α} (h : l.head? = some q) :
    (l ++ l').head? = some q := by
  cases l <;> simp_all

theorem head?_take {α : Type _} {l : List α} {q : α} {m : Nat}
    (h : l.head? = some q) (hm : 1 ≤ m) : (l.take m).head? = some q := by
  cases l with
  | nil => simp at h
  | cons a l =>
    obtain ⟨m, rfl⟩ : ∃ k, m = k + 1 := ⟨m - 1, by omega⟩
    simp_all

/-! ## C5: query expansion -/

/-- Both appending loops of `expand_query` preserve "head is the original query
and no exact duplicates". -/
theorem expand_query_invariant (key_phrases : List Str) (query : Str)
    (max_expansions : Nat) :
    (key_phrases.foldl (fun acc phrase =>
        addVariations (_create_query_variations phrase query)
          (if phrase ∉ acc then acc ++ [phrase] else acc) max_expansions)
        [query]).head? = some query ∧
    (key_phrases.foldl (fun acc phrase =>
        addVariations (_create_query_variations phrase query)
          (if phrase ∉ acc then acc ++ [phrase] else acc) max_expansions)
        [query]).Nodup := by
  have step : ∀ (acc : List Str) (v : Str),
      acc.head? = some query ∧ acc.Nodup →
      (if v ∉ acc then acc ++ [v] else acc).head? = some query ∧
        (if v ∉ acc then acc ++ [v] else acc).Nodup := by
    intro acc v ⟨h1, h2⟩
    by_cases hv : v ∉ acc
    · rw [if_pos hv]
      exact ⟨head?_append_left h1, by simp [List.nodup_append, h2, hv]⟩
    · rw [if_neg hv]; exact ⟨h1, h2⟩
  refine foldl_invariant _ (fun acc : List Str => acc.head? = some query ∧ acc.Nodup) _ _
    (by simp) ?_
  intro acc phrase _ hP
  refine foldl_invariant _ (fun acc : List Str => acc.head? = some query ∧ acc.Nodup) _ _
    (step acc phrase hP) ?_
  intro acc' v _ hP'
  by_cases hc : v ∉ acc' ∧ acc'.length < max_expansions
  · rw [if_pos hc]
    exact ⟨head?_append_left hP'.1, by simp [List.nodup_append, hP'.2, hc.1]⟩
  · rw [if_neg hc]; exact hP'

/-- Amended C5: for every non-empty query, every `max_expansions ≥ 1` and every
externally produced key-phrase list, `expand_query` returns a list whose first
element is the original query exactly as passed (not the cleaned query), whose
elements are pairwise distinct under exact (case-sensitive) comparison, and
whose length is at most `max_expansions`. -/
theorem c5_expand_query_amended (key_phrases : List Str) (query : Str)
    (max_expansions : Nat) (hq : query ≠ []) (hm : 1 ≤ max_expansions) :
    (expand_query key_phrases query max_expansions).head? = some query ∧
    (expand_query key_phrases query max_expansions).Nodup ∧
    (expand_query key_phrases query max_expansions).length ≤ max_expansions := by
  have h := expand_query_invariant key_phrases query max_expansions
  unfold expand_query
  rw [if_neg hq]
  exact ⟨head?_take h.1 hm, h.2.sublist (List.take_sublist _ _),
    List.length_take_le _ _⟩

theorem c5_expand_query_amended_witness :
    ("q".toList ≠ ([] : Str) ∧ 1 ≤ 3) ∧
    ((expand_query [] "q".toList 3).head? = some "q".toList ∧
      (expand_query [] "q".toList 3).Nodup ∧
      (expand_query [] "q".toList 3).length ≤ 3) :=
  ⟨⟨by decide, by decide⟩, c5_expand_query_amended [] "q".toList 3 (by decide) (by decide)⟩

/-! ## C1: retrieval contract -/

theorem insertDesc_perm (x : RResult) (l : List RResult) :
    (insertDesc x l).Perm (x :: l) := by
  induction l with
  | nil => simp [insertDesc]
  | cons y ys ih =>
    unfold insertDesc
    by_cases h : y.similarity ≤ x.similarity
    · rw [if_pos h]
    · rw [if_neg h]
      exact (ih.cons y).trans (List.Perm.swap x y ys)

theorem sortBySimDesc_perm (l : List RResult) : (sortBySimDesc l).Perm l := by
  induction l with
  | nil => simp [sortBySimDesc]
  | cons x xs ih =>
    exact (insertDesc_perm x (sortBySimDesc xs)).trans (ih.cons x)

theorem pairwise_insertDesc (x : RResult) (l : List RResult)
    (h : l.Pairwise (fun a b => b.similarity ≤ a.similarity)) :
    (insertDesc x l).Pairwise (fun a b => b.similarity ≤ a.similarity) := by
  induction l with
  | nil => simp [insertDesc]
  | cons y ys ih =>
    unfold insertDesc
    rcases List.pairwise_cons.mp h with ⟨hy, hys⟩
    by_cases hle : y.similarity ≤ x.similarity
    · rw [if_pos hle]
      refine List.pairwise_cons.mpr ⟨?_, h⟩
      intro z hz
      rcases List.mem_cons.mp hz with rfl | hz
      · exact hle
      · exact (hy z hz).trans hle
    · rw [if_neg hle]
      refine List.pairwise_cons.mpr ⟨?_, ih hys⟩
      intro z hz
      rcases List.mem_cons.mp ((insertDesc_perm x ys).mem_iff.mp hz) with rfl | hz
      · exact le_of_lt (lt_of_not_le hle)
      · exact hy z hz

theorem sortBySimDesc_pairwise (l : List RResult) :
    (sortBySimDesc l).Pairwise (fun a b => b.similarity ≤ a.similarity) := by
  induction l with
  | nil => simp [sortBySimDesc]
  | cons x xs ih => exact pairwise_insertDesc x (sortBySimDesc xs) ih

/-- Every result accumulated by `_search_expanded_queries` comes from a
`search` call issued with threshold `t`. -/
theorem searchExpanded_sim (search : Str → Nat → ℚ → List RResult)
    (hsearch : ∀ q k τ, ∀ r ∈ search q k τ, τ ≤ r.similarity)
    (eqs : List Str) (k : Nat) (t : ℚ) (ex : List RResult) :
    ∀ r ∈ _search_expanded_queries search eqs k t ex, t ≤ r.similarity := by
  unfold _search_expanded_queries
  have main := foldl_invariant
    (fun (st : List RResult × List Str) eq =>
      if k ≤ st.1.length then st
      else
        (search eq k t).foldl (fun st r =>
          if r.chunk_id ∉ st.2 ∧ st.1.length < k then
            (st.1 ++ [{ r with from_expanded_query := true }], r.chunk_id :: st.2)
          else st) st)
    (fun st => ∀ r ∈ st.1, t ≤ r.similarity) eqs ([], ex.map (·.chunk_id))
    (by simp)
  refine main ?_
  intro st eq _ hst
  dsimp only
  by_cases hk : k ≤ st.1.length
  · rw [if_pos hk]; exact hst
  · rw [if_neg hk]
    refine foldl_invariant _
      (fun st : List RResult × List Str => ∀ r ∈ st.1, t ≤ r.similarity) _ _ hst ?_
    intro st' r hr hst'
    dsimp only
    by_cases hcond : r.chunk_id ∉ st'.2 ∧ st'.1.length < k
    · rw [if_pos hcond]
      intro z hz
      rcases List.mem_append.mp hz with hz | hz
      · exact hst' z hz
      · rcases List.mem_singleton.mp hz with rfl
        exact hsearch eq k t r hr
    · rw [if_neg hcond]; exact hst'

/-- C1: `retrieve(q, top_k, t)` returns at most `top_k` results, every returned
result has `similarity ≥ t`, and the result sequence is sorted by similarity in
descending order — under the hypothesis that the external
`vector_store.search` only returns results meeting the threshold it is given. -/
theorem c1_retrieve_contract (search : Str → Nat → ℚ → List RResult)
    (pq : ProcessedQuery) (query : Str) (top_k : Nat) (t : ℚ)
    (htop : 0 < top_k)
    (hsearch : ∀ q k τ, ∀ r ∈ search q k τ, τ ≤ r.similarity) :
    (retrieve search pq query top_k t).length ≤ top_k ∧
    (∀ r ∈ retrieve search pq query top_k t, t ≤ r.similarity) ∧
    (retrieve search pq query top_k t).Pairwise
      (fun a b => b.similarity ≤ a.similarity) := by
  unfold retrieve
  by_cases hq : query = []
  · rw [if_pos hq]
    exact ⟨by simp, by simp, by simp⟩
  rw [if_neg hq]
  rw [if_neg (Nat.pos_iff_ne_zero.mp htop)]
  set t' := if t = 0 then SIMILARITY_THRESHOLD else t with ht'
  have htt' : t ≤ t' := by
    by_cases h0 : t = 0
    · rw [ht', if_pos h0, h0]; unfold SIMILARITY_THRESHOLD; norm_num
    · rw [ht', if_neg h0]
  set base := search pq.processed_query top_k t' with hbase
  set results :=
    if base.length < top_k ∧ pq.expanded_queries ≠ [] then
      base ++ _search_expanded_queries search pq.expanded_queries
        (top_k - base.length) t' base
    else base with hres
  have hall : ∀ r ∈ results, t' ≤ r.similarity := by
    rw [hres]
    by_cases hcond : base.length < top_k ∧ pq.expanded_queries ≠ []
    · rw [if_pos hcond]
      intro r hr
      rcases List.mem_append.mp hr with hr | hr
      · exact hsearch _ _ _ r hr
      · exact searchExpanded_sim search hsearch _ _ _ _ r hr
    · rw [if_neg hcond]
      intro r hr
      exact hsearch _ _ _ r hr
  refine ⟨?_, ?_, ?_⟩
  · simp [List.length_take_le]
  · intro r hr
    rcases List.mem_map.mp hr with ⟨r₀, hr₀, rfl⟩
    have hr₀' : r₀ ∈ sortBySimDesc results :=
      List.mem_of_mem_take hr₀
    have : r₀ ∈ results := (sortBySimDesc_perm results).subset hr₀'
    exact le_trans htt' (hall r₀ this)
  · rw [List.pairwise_map]
    exact ((sortBySimDesc_pairwise results).sublist (List.take_sublist _ _)).imp
      (fun h => h)

theorem c1_retrieve_contract_witness :
    (0 < 1 ∧ ∀ (q : Str) (k : Nat) (τ : ℚ),
      ∀ r ∈ (fun (_ : Str) (_ : Nat) (_ : ℚ) => ([] : List RResult)) q k τ,
        τ ≤ r.similarity) ∧
    ((retrieve (fun _ _ _ => []) ⟨[], [], [], []⟩ "q".toList 1 0).length ≤ 1 ∧
      (∀ r ∈ retrieve (fun _ _ _ => []) ⟨[], [], [], []⟩ "q".toList 1 0,
        (0 : ℚ) ≤ r.similarity) ∧
      (retrieve (fun _ _ _ => []) ⟨[], [], [], []⟩ "q".toList 1 0).Pairwise
        (fun a b => b.similarity ≤ a.similarity)) :=
  ⟨⟨by decide, by intro q k τ r hr; simp at hr⟩,
    c1_retrieve_contract (fun _ _ _ => []) ⟨[], [], [], []⟩ "q".toList 1 0
      (by decide) (by intro q k τ r hr; simp at hr)⟩

/-! ## C6: retrieval quality validation -/

/-- C6: for a non-empty result list, the low-average issue is flagged iff the
mean similarity is below 0.7, the very-low issue iff the minimum similarity is
below 0.5, the low-diversity issue iff `unique papers / results < 0.3`, and
`valid` holds iff no issue is flagged; the empty result list is always invalid
with a no-results reason; and the three-result example from the spec yields
diversity 2/3, flags only the very-low issue, and is invalid. -/
theorem c6_validate_quality_spec (results : List RResult) (h : results ≠ []) :
    (("Low average similarity".toList ∈
        (validate_retrieval_quality results).quality_issues ↔
        (results.map (fun r => r.similarity)).sum /
          ((results.map (fun r => r.similarity)).length : ℚ) < 7/10) ∧
      ("Some results have very low similarity".toList ∈
        (validate_retrieval_quality results).quality_issues ↔
        minQ (results.map (fun r => r.similarity)) < 1/2) ∧
      ("Low diversity in results".toList ∈
        (validate_retrieval_quality results).quality_issues ↔
        (((results.map (fun r => r.paper_title.getD "Unknown".toList)).dedup.length : ℚ) /
          (results.length : ℚ) < 3/10)) ∧
      ((validate_retrieval_quality results).valid = true ↔
        (¬((results.map (fun r => r.similarity)).sum /
            ((results.map (fun r => r.similarity)).length : ℚ) < 7/10) ∧
          ¬(minQ (results.map (fun r => r.similarity)) < 1/2) ∧
          ¬(((results.map (fun r => r.paper_title.getD "Unknown".toList)).dedup.length : ℚ) /
            (results.length : ℚ) < 3/10)))) ∧
    ((validate_retrieval_quality []).valid = false ∧
      (validate_retrieval_quality []).reason = some "No results found".toList) ∧
    ((validate_retrieval_quality exampleResults).diversity_score = some (2/3 : ℚ) ∧
      (validate_retrieval_quality exampleResults).quality_issues =
        ["Some results have very low similarity".toList] ∧
      (validate_retrieval_quality exampleResults).valid = false) := by
  have d12 : "Low average similarity".toList ≠
      "Some results have very low similarity".toList := by decide
  have d13 : "Low average similarity".toList ≠ "Low diversity in results".toList := by decide
  have d23 : "Some results have very low similarity".toList ≠
      "Low diversity in results".toList := by decide
  refine ⟨?_, ⟨rfl, rfl⟩, ?_⟩
  · unfold validate_retrieval_quality
    rw [if_neg h]
    simp only [List.length_map]
    by_cases hA : (results.map (fun r => r.similarity)).sum / ((results.length : ℚ)) < 7/10 <;>
    by_cases hB : minQ (results.map (fun r => r.similarity)) < 1/2 <;>
    by_cases hC : (((results.map (fun r => r.paper_title.getD "Unknown".toList)).dedup.length : ℚ) /
        (results.length : ℚ) < 3/10) <;>
      simp_all [d12, d12.symm, d13, d13.symm, d23, d23.symm]
  · have h9 : mkRat 9 10 = (9 : ℚ)/10 := by rw [Rat.mkRat_eq_div]; norm_num
    have h17 : mkRat 17 20 = (17 : ℚ)/20 := by rw [Rat.mkRat_eq_div]; norm_num
    have h2 : mkRat 2 5 = (2 : ℚ)/5 := by rw [Rat.mkRat_eq_div]; norm_num
    have hdedup : ([['T', '1'], ['T', '2']] : List Str).dedup.length = 2 := by decide
    unfold validate_retrieval_quality
    rw [if_neg (by decide : exampleResults ≠ [])]
    refine ⟨?_, ?_, ?_⟩ <;>
      norm_num [exampleResults, minQ, hdedup, h9, h17, h2, min_def]

theorem c6_validate_quality_spec_witness :
    exampleResults ≠ [] ∧
    ((("Low average similarity".toList ∈
        (validate_retrieval_quality exampleResults).quality_issues ↔
        (exampleResults.map (fun r => r.similarity)).sum /
          ((exampleResults.map (fun r => r.similarity)).length : ℚ) < 7/10) ∧
      ("Some results have very low similarity".toList ∈
        (validate_retrieval_quality exampleResults).quality_issues ↔
        minQ (exampleResults.map (fun r => r.similarity)) < 1/2) ∧
      ("Low diversity in results".toList ∈
        (validate_retrieval_quality exampleResults).quality_issues ↔
        (((exampleResults.map
            (fun r => r.paper_title.getD "Unknown".toList)).dedup.length : ℚ) /
          (exampleResults.length : ℚ) < 3/10)) ∧
      ((validate_retrieval_quality exampleResults).valid = true ↔
        (¬((exampleResults.map (fun r => r.similarity)).sum /
            ((exampleResults.map (fun r => r.similarity)).length : ℚ) < 7/10) ∧
          ¬(minQ (exampleResults.map (fun r => r.similarity)) < 1/2) ∧
          ¬(((exampleResults.map
              (fun r => r.paper_title.getD "Unknown".toList)).dedup.length : ℚ) /
            (exampleResults.length : ℚ) < 3/10)))) ∧
    ((validate_retrieval_quality []).valid = false ∧
      (validate_retrieval_quality []).reason = some "No results found".toList) ∧
    ((validate_retrieval_quality exampleResults).diversity_score = some (2/3 : ℚ) ∧
      (validate_retrieval_quality exampleResults).quality_issues =
        ["Some results have very low similarity".toList] ∧
      (validate_retrieval_quality exampleResults).valid = false)) :=
  ⟨by decide, c6_validate_quality_spec exampleResults (by decide)⟩

/-! ## C8: single citation per paper -/

/-- A successful chunk scan only ever cites a paper that is not yet cited. -/
theorem scanChunks_some_not_cited (style s : Str) :
    ∀ (chunks : List ChunkD) (cited : List Str) (cmap : List (Str × Citation))
      (counter : Nat) (t m : Str) (c2 : List (Str × Citation)) (k2 : Nat),
      scanChunks style s cited cmap counter chunks = some (t, m, c2, k2) → t ∉ cited := by
  intro chunks
  induction chunks with
  | nil =>
    intro cited cmap counter t m c2 k2 h
    simp [scanChunks] at h
  | cons ch more ih =>
    intro cited cmap counter t m c2 k2 h
    rw [scanChunks] at h
    rcases hmt : ch.metadata.paper_title with _ | t'
    all_goals rw [hmt] at h
    all_goals dsimp only at h
    · exact ih _ _ _ _ _ _ _ h
    · by_cases hcit : t' ≠ [] ∧ _sentence_cites_paper s ch.text = true
      · rw [if_pos hcit] at h
        by_cases hmem : t' ∉ cited
        · rw [if_pos hmem] at h
          rcases hlook : mapLookup cmap t' with _ | c
          all_goals rw [hlook] at h
          all_goals dsimp only at h
          · exact ih _ _ _ _ _ _ _ h
          · by_cases hnum : pyLower style = "numeric".toList
            · rw [if_pos hnum] at h
              obtain ⟨rfl, -⟩ := Prod.mk.injEq .. ▸ Option.some.inj h
              exact hmem
            · rw [if_neg hnum] at h
              by_cases had : pyLower style = "author_date".toList
              · rw [if_pos had] at h
                obtain ⟨rfl, -⟩ := Prod.mk.injEq .. ▸ Option.some.inj h
                exact hmem
              · rw [if_neg had] at h
                obtain ⟨rfl, -⟩ := Prod.mk.injEq .. ▸ Option.some.inj h
                exact hmem
        · rw [if_neg hmem] at h
          exact ih _ _ _ _ _ _ _ h
      · rw [if_neg hcit] at h
        exact ih _ _ _ _ _ _ _ h

/-- A sentence that lexically matches no chunk is matched by no scan. -/
theorem scanChunks_none_of_no_match (style s : Str) :
    ∀ (chunks : List ChunkD),
      (∀ ch ∈ chunks, ∀ t, ch.metadata.paper_title = some t →
        t = [] ∨ _sentence_cites_paper s ch.text = false) →
      ∀ (cited : List Str) (cmap : List (Str × Citation)) (counter : Nat),
        scanChunks style s cited cmap counter chunks = none := by
  intro chunks
  induction chunks with
  | nil => intro _ cited cmap counter; rfl
  | cons ch more ih =>
    intro hno cited cmap counter
    rw [scanChunks]
    have ihm := ih (fun c hc => hno c (List.mem_cons_of_mem _ hc))
    rcases hmt : ch.metadata.paper_title with _ | t'
    all_goals dsimp only
    · exact ihm cited cmap counter
    · have hcase := hno ch (List.mem_cons_self _ _) t' hmt
      have hcond : ¬(t' ≠ [] ∧ _sentence_cites_paper s ch.text = true) := by
        rcases hcase with h1 | h2
        · intro hc; exact hc.1 h1
        · intro hc; rw [h2] at hc; exact Bool.false_ne_true hc.2
      rw [if_neg hcond]
      exact ihm cited cmap counter

/-- The per-sentence loop never logs the same paper twice, and never logs a
paper from the incoming cited set. -/
theorem citeLoop_log_nodup (chunks : List ChunkD) (style : Str) :
    ∀ (ss cited : List Str) (cmap : List (Str × Citation)) (counter : Nat),
      ((citeLoop chunks style ss cited cmap counter).2.1.filterMap id).Nodup ∧
      (∀ t ∈ (citeLoop chunks style ss cited cmap counter).2.1.filterMap id,
        t ∉ cited) := by
  intro ss
  induction ss with
  | nil =>
    intro cited cmap counter
    constructor <;> simp [citeLoop]
  | cons s rest ih =>
    intro cited cmap counter
    rw [citeLoop]
    rcases hscan : scanChunks style s cited cmap counter chunks with _ | ⟨t, m, cmap1, counter1⟩
    · have h := ih cited cmap counter
      constructor
      · simpa using h.1
      · simpa using h.2
    · have hns := scanChunks_some_not_cited style s chunks cited cmap counter t m
        cmap1 counter1 hscan
      have h := ih (cited ++ [t]) cmap1 counter1
      constructor
      · simp only [List.filterMap_cons, id]
        refine List.nodup_cons.mpr ⟨?_, h.1⟩
        intro hmemt
        have := h.2 t hmemt
        simp at this
      · intro u hu
        simp only [List.filterMap_cons, id] at hu
        rcases List.mem_cons.mp hu with rfl | hu'
        · exact hns
        · intro hc
          exact h.2 u hu' (List.mem_append_left _ hc)

/-- C8: in `add_citations_to_text`'s sentence loop, each `paper_title` receives
an inline marker in at most one sentence across the whole answer, and a
sentence whose lexical overlap qualifies for no chunk is emitted unchanged
(receives no marker). -/
theorem c8_single_citation_per_paper (text style : Str) (chunks : List ChunkD)
    (cmap : List (Str × Citation)) (counter : Nat) :
    ((citeLoop chunks style (sentSplit text) [] cmap counter).2.1.filterMap id).Nodup ∧
    List.Forall₂ (fun s out =>
        (∀ ch ∈ chunks, ∀ t, ch.metadata.paper_title = some t →
          t = [] ∨ _sentence_cites_paper s ch.text = false) → out = s)
      (sentSplit text) (citeLoop chunks style (sentSplit text) [] cmap counter).1 := by
  constructor
  · exact (citeLoop_log_nodup chunks style (sentSplit text) [] cmap counter).1
  · have main : ∀ (ss cited : List Str) (cmap : List (Str × Citation)) (counter : Nat),
        List.Forall₂ (fun s out =>
          (∀ ch ∈ chunks, ∀ t, ch.metadata.paper_title = some t →
            t = [] ∨ _sentence_cites_paper s ch.text = false) → out = s)
          ss (citeLoop chunks style ss cited cmap counter).1 := by
      intro ss
      induction ss with
      | nil =>
        intro cited cmap counter
        simp [citeLoop]
      | cons s rest ih =>
        intro cited cmap counter
        rw [citeLoop]
        rcases hscan : scanChunks style s cited cmap counter chunks with _ | ⟨t, m, cmap1, counter1⟩
        · exact List.Forall₂.cons (fun _ => rfl) (ih cited cmap counter)
        · refine List.Forall₂.cons ?_ (ih (cited ++ [t]) cmap1 counter1)
          intro hno
          rw [scanChunks_none_of_no_match style s chunks hno cited cmap counter] at hscan
          cases hscan
    exact main (sentSplit text) [] cmap counter

/-! ## C4: determinism of citation numbering -/

theorem numberFrom_numbered (k : Nat) (m : List (Str × Citation)) :
    ∀ e ∈ numberFrom k m, e.2.citation_number.getD 0 ≠ 0 := by
  induction m generalizing k with
  | nil => intro e he; cases he
  | cons a rest ih =>
    intro e he
    rcases List.mem_cons.mp he with rfl | he'
    · simp [numberFrom]
    · exact ih (k + 1) e he'

theorem numberFrom_keys (k : Nat) (m : List (Str × Citation)) :
    (numberFrom k m).map Prod.fst = m.map Prod.fst := by
  induction m generalizing k with
  | nil => rfl
  | cons a rest ih => simp [numberFrom, ih]

theorem create_citation_map_keys_nodup (chunks : List ChunkD) :
    ((create_citation_map chunks).map Prod.fst).Nodup := by
  unfold create_citation_map
  refine foldl_invariant _
    (fun cmap : List (Str × Citation) => (cmap.map Prod.fst).Nodup) _ _ (by simp) ?_
  intro cmap ch _ hP
  dsimp only
  rcases ch.metadata.paper_title with _ | t
  · exact hP
  · dsimp only
    by_cases hc : t ≠ [] ∧ t ∉ cmap.map Prod.fst
    · rw [if_pos hc]
      rw [List.map_append]
      refine List.nodup_append.mpr ⟨hP, List.nodup_singleton t, ?_⟩
      intro a ha hb
      simp only [List.map_cons, List.map_nil, List.mem_singleton] at hb
      subst hb
      exact hc.2 ha
    · rw [if_neg hc]; exact hP

theorem mapLookup_cons (e : Str × Citation) (rest : List (Str × Citation)) (t : Str) :
    mapLookup (e :: rest) t = if e.1 = t then some e.2 else mapLookup rest t := by
  unfold mapLookup
  by_cases he : e.1 = t
  · rw [if_pos he, List.find?_cons_of_pos _ (by simp [he])]
    rfl
  · rw [if_neg he, List.find?_cons_of_neg _ (by simp [he])]

theorem mapLookup_mem (cmap : List (Str × Citation)) (t : Str) (c : Citation)
    (h : mapLookup cmap t = some c) : ∃ e ∈ cmap, e.1 = t ∧ e.2 = c := by
  induction cmap with
  | nil => simp [mapLookup] at h
  | cons e rest ih =>
    rw [mapLookup_cons] at h
    by_cases he : e.1 = t
    · rw [if_pos he] at h
      exact ⟨e, List.mem_cons_self _ _, he, by simpa using h⟩
    · rw [if_neg he] at h
      obtain ⟨e', he', h1, h2⟩ := ih h
      exact ⟨e', List.mem_cons_of_mem _ he', h1, h2⟩

theorem mapUpdate_eq_of_not_mem (cmap : List (Str × Citation)) (t : Str) (c : Citation)
    (h : t ∉ cmap.map Prod.fst) : mapUpdate cmap t c = cmap := by
  induction cmap with
  | nil => rfl
  | cons e rest ih =>
    simp only [List.map_cons, List.mem_cons, not_or] at h
    show (if e.1 = t then (t, c) else e) :: mapUpdate rest t c = e :: rest
    rw [if_neg (fun hc => h.1 hc.symm), ih h.2]

theorem mapUpdate_self (cmap : List (Str × Citation)) (t : Str) (c : Citation)
    (hnd : (cmap.map Prod.fst).Nodup) (h : mapLookup cmap t = some c) :
    mapUpdate cmap t c = cmap := by
  induction cmap with
  | nil => cases h
  | cons e rest ih =>
    simp only [List.map_cons, List.nodup_cons] at hnd
    rw [mapLookup_cons] at h
    by_cases he : e.1 = t
    · rw [if_pos he] at h
      have h2 : e.2 = c := by simpa using h
      show (if e.1 = t then (t, c) else e) :: mapUpdate rest t c = e :: rest
      rw [if_pos he]
      have het : (t, c) = e := by rw [← he, ← h2]
      rw [het, mapUpdate_eq_of_not_mem rest t c (he ▸ hnd.1)]
    · rw [if_neg he] at h
      show (if e.1 = t then (t, c) else e) :: mapUpdate rest t c = e :: rest
      rw [if_neg he, ih hnd.2 h]

/-- With a fully-numbered map (numeric style) or the author-date style, a chunk
scan never changes the map and threads the counter through unchanged. -/
theorem scanChunks_stable (style s : Str) (cmap : List (Str × Citation))
    (hsty : pyLower style = "author_date".toList ∨
      (pyLower style = "numeric".toList ∧
        (∀ e ∈ cmap, e.2.citation_number.getD 0 ≠ 0) ∧ (cmap.map Prod.fst).Nodup)) :
    ∀ (chunks : List ChunkD) (cited : List Str) (counter : Nat),
      scanChunks style s cited cmap counter chunks =
        (scanChunks style s cited cmap 0 chunks).map
          (fun x => (x.1, x.2.1, cmap, counter)) := by
  intro chunks
  induction chunks with
  | nil => intro cited counter; rfl
  | cons ch more ih =>
    intro cited counter
    rw [scanChunks, scanChunks]
    rcases hmt : ch.metadata.paper_title with _ | t'
    all_goals dsimp only
    · exact ih cited counter
    · by_cases hcit : t' ≠ [] ∧ _sentence_cites_paper s ch.text = true
      case neg => rw [if_neg hcit, if_neg hcit]; exact ih cited counter
      rw [if_pos hcit, if_pos hcit]
      by_cases hmem : t' ∉ cited
      case neg => rw [if_neg hmem, if_neg hmem]; exact ih cited counter
      rw [if_pos hmem, if_pos hmem]
      rcases hlook : mapLookup cmap t' with _ | c
      all_goals dsimp only
      · exact ih cited counter
      · rcases hsty with had | ⟨hnum, hnumd, hnodup⟩
        · have hnn : ¬ pyLower style = "numeric".toList := by
            rw [had]; decide
          rw [if_neg hnn, if_neg hnn, if_pos had, if_pos had]
          rfl
        · rw [if_pos hnum, if_pos hnum]
          have hc : c.citation_number.getD 0 ≠ 0 := by
            obtain ⟨e, he, h1, h2⟩ := mapLookup_mem cmap t' c hlook
            exact h2 ▸ hnumd e he
          have hfmt : ∀ k, format_numeric k c =
              ('[' :: natDigits (c.citation_number.getD 0) ++ [']'], k, c) := by
            intro k; unfold format_numeric; rw [if_neg hc]
          rw [hfmt, hfmt]
          dsimp only
          rw [mapUpdate_self cmap t' c hnodup hlook]
          rfl

/-- With a fully-numbered map (numeric style) or the author-date style, the
sentence loop's emitted text and log are independent of the incoming counter,
and the citation map comes out unchanged. -/
theorem citeLoop_stable (chunks : List ChunkD) (style : Str)
    (cmap : List (Str × Citation))
    (hsty : pyLower style = "author_date".toList ∨
      (pyLower style = "numeric".toList ∧
        (∀ e ∈ cmap, e.2.citation_number.getD 0 ≠ 0) ∧ (cmap.map Prod.fst).Nodup)) :
    ∀ (ss cited : List Str) (counter : Nat),
      citeLoop chunks style ss cited cmap counter =
        ((citeLoop chunks style ss cited cmap 0).1,
          (citeLoop chunks style ss cited cmap 0).2.1, cmap, counter) := by
  intro ss
  induction ss with
  | nil => intro cited counter; rfl
  | cons s rest ih =>
    intro cited counter
    rw [citeLoop, citeLoop]
    rw [scanChunks_stable style s cmap hsty chunks cited counter]
    rcases hscan : scanChunks style s cited cmap 0 chunks with _ | ⟨t, m, cm0, k0⟩
    · dsimp only [Option.map]
      rw [ih cited counter, ih cited 0]
    · have h0 := scanChunks_stable style s cmap hsty chunks cited 0
      rw [hscan] at h0
      simp only [Option.map_some', Option.some.injEq, Prod.mk.injEq] at h0
      obtain ⟨-, -, rfl, rfl⟩ := h0
      dsimp only [Option.map]
      rw [ih (cited ++ [t]) counter, ih (cited ++ [t]) 0]

/-- Amended C4: for the `"numeric"` and `"author_date"` styles the cited text
and citation map returned by `add_citations_to_text` are independent of the
incoming counter state — so two successive calls on the same instance with
identical arguments agree — and for `"numeric"` the returned map carries
numbers 1, 2, … assigned in strict first-seen order of paper titles. For any
other style (e.g. `"apa"`) the counter persists across calls. -/
theorem c4_numeric_author_date_deterministic (counter₁ counter₂ : Nat) (text : Str)
    (chunks : List ChunkD) (style : Str)
    (hstyle : pyLower style = "numeric".toList ∨ pyLower style = "author_date".toList) :
    ((add_citations_to_text counter₁ text chunks style).1 =
        (add_citations_to_text counter₂ text chunks style).1 ∧
      (add_citations_to_text counter₁ text chunks style).2.1 =
        (add_citations_to_text counter₂ text chunks style).2.1) ∧
    (pyLower style = "numeric".toList →
      (add_citations_to_text counter₁ text chunks style).2.1 =
        numberFrom 0 (create_citation_map chunks)) := by
  by_cases hch : chunks = []
  · subst hch
    unfold add_citations_to_text
    exact ⟨⟨rfl, rfl⟩, fun _ => by simp [create_citation_map, numberFrom]⟩
  · unfold add_citations_to_text
    rw [if_neg hch, if_neg hch]
    dsimp only
    rcases hstyle with hnum | had
    · simp only [if_pos hnum]
      have hsty : pyLower style = "author_date".toList ∨
          (pyLower style = "numeric".toList ∧
            (∀ e ∈ numberFrom 0 (create_citation_map chunks),
              e.2.citation_number.getD 0 ≠ 0) ∧
            ((numberFrom 0 (create_citation_map chunks)).map Prod.fst).Nodup) :=
        Or.inr ⟨hnum, numberFrom_numbered 0 _,
          by rw [numberFrom_keys]; exact create_citation_map_keys_nodup chunks⟩
      refine ⟨by constructor <;> trivial, fun _ => ?_⟩
      rw [citeLoop_stable chunks style (numberFrom 0 (create_citation_map chunks)) hsty]
    · have hnn : ¬ pyLower style = "numeric".toList := by
        rw [had]; decide
      simp only [if_neg hnn]
      have hsty : pyLower style = "author_date".toList ∨
          (pyLower style = "numeric".toList ∧
            (∀ e ∈ create_citation_map chunks, e.2.citation_number.getD 0 ≠ 0) ∧
            ((create_citation_map chunks).map Prod.fst).Nodup) := Or.inl had
      constructor
      · constructor
        · rw [citeLoop_stable chunks style (create_citation_map chunks) hsty
            (sentSplit text) [] counter₁,
            citeLoop_stable chunks style (create_citation_map chunks) hsty
            (sentSplit text) [] counter₂]
        · rw [citeLoop_stable chunks style (create_citation_map chunks) hsty
            (sentSplit text) [] counter₁,
            citeLoop_stable chunks style (create_citation_map chunks) hsty
            (sentSplit text) [] counter₂]
      · intro hnum
        exact absurd hnum hnn

theorem c4_numeric_author_date_deterministic_witness :
    (pyLower "numeric".toList = "numeric".toList ∨
      pyLower "numeric".toList = "author_date".toList) ∧
    (((add_citations_to_text 0 sentenceQ [chunkP] "numeric".toList).1 =
        (add_citations_to_text 5 sentenceQ [chunkP] "numeric".toList).1 ∧
      (add_citations_to_text 0 sentenceQ [chunkP] "numeric".toList).2.1 =
        (add_citations_to_text 5 sentenceQ [chunkP] "numeric".toList).2.1) ∧
    (pyLower "numeric".toList = "numeric".toList →
      (add_citations_to_text 0 sentenceQ [chunkP] "numeric".toList).2.1 =
        numberFrom 0 (create_citation_map [chunkP]))) :=
  ⟨Or.inl (by decide),
    c4_numeric_author_date_deterministic 0 5 sentenceQ [chunkP] "numeric".toList
      (Or.inl (by decide))⟩

/-! ## Whitespace normal form lemmas -/

theorem okRunP_cons_left (c : Char) (X : Str) (hc : ¬ isPySpace c = true)
    (hX : okRunP X) : okRunP (c :: X) := by
  cases X with
  | nil => trivial
  | cons x xs => exact ⟨fun h => hc h.1, hX⟩

theorem okRunP_tail {c : Char} {l : Str} (h : okRunP (c :: l)) : okRunP l := by
  cases l with
  | nil => trivial
  | cons d rest => exact h.2

theorem collapseWs_ne_space_head (d : Char) (rest : Str) (hd : ¬ isPySpace d = true) :
    ∃ tl, collapseWs (d :: rest) = d :: tl := by
  cases rest with
  | nil => exact ⟨[], by simp [collapseWs, hd]⟩
  | cons e tl => exact ⟨collapseWs (e :: tl), by simp [collapseWs, hd]⟩

theorem okRunP_collapseWs : ∀ l, okRunP (collapseWs l)
  | [] => trivial
  | [c] => by
    by_cases h : isPySpace c = true <;> simp [collapseWs, h] <;> trivial
  | c :: d :: rest => by
    by_cases hc : isPySpace c = true
    · by_cases hd2 : isPySpace d = true
      · rw [show collapseWs (c :: d :: rest) = collapseWs (d :: rest) by
          simp [collapseWs, hc, hd2]]
        exact okRunP_collapseWs (d :: rest)
      · rw [show collapseWs (c :: d :: rest) = ' ' :: collapseWs (d :: rest) by
          simp [collapseWs, hc, hd2]]
        obtain ⟨tl, htl⟩ := collapseWs_ne_space_head d rest hd2
        rw [htl]
        exact ⟨fun h => hd2 h.2, htl ▸ okRunP_collapseWs (d :: rest)⟩
    · rw [show collapseWs (c :: d :: rest) = c :: collapseWs (d :: rest) by
        simp [collapseWs, hc]]
      exact okRunP_cons_left _ _ hc (okRunP_collapseWs (d :: rest))

theorem mem_collapseWs : ∀ (l : Str) (c : Char), c ∈ collapseWs l →
    c = ' ' ∨ (c ∈ l ∧ ¬ isPySpace c = true)
  | [], c, h => absurd h (by simp [collapseWs])
  | [a], c, h => by
    by_cases ha : isPySpace a = true
    · simp [collapseWs, ha] at h
      exact Or.inl h
    · simp [collapseWs, ha] at h
      exact Or.inr ⟨by simp [h], h ▸ ha⟩
  | a :: d :: rest, c, h => by
    by_cases ha : isPySpace a = true
    · by_cases hd2 : isPySpace d = true
      · rw [show collapseWs (a :: d :: rest) = collapseWs (d :: rest) by
          simp [collapseWs, ha, hd2]] at h
        rcases mem_collapseWs (d :: rest) c h with h1 | ⟨h2, h3⟩
        · exact Or.inl h1
        · exact Or.inr ⟨List.mem_cons_of_mem _ h2, h3⟩
      · rw [show collapseWs (a :: d :: rest) = ' ' :: collapseWs (d :: rest) by
          simp [collapseWs, ha, hd2]] at h
        rcases List.mem_cons.mp h with rfl | h'
        · exact Or.inl rfl
        · rcases mem_collapseWs (d :: rest) c h' with h1 | ⟨h2, h3⟩
          · exact Or.inl h1
          · exact Or.inr ⟨List.mem_cons_of_mem _ h2, h3⟩
    · rw [show collapseWs (a :: d :: rest) = a :: collapseWs (d :: rest) by
        simp [collapseWs, ha]] at h
      rcases List.mem_cons.mp h with rfl | h'
      · exact Or.inr ⟨List.mem_cons_self _ _, ha⟩
      · rcases mem_collapseWs (d :: rest) c h' with h1 | ⟨h2, h3⟩
        · exact Or.inl h1
        · exact Or.inr ⟨List.mem_cons_of_mem _ h2, h3⟩

theorem wsOnlySpaceP_collapseWs (l : Str) : wsOnlySpaceP (collapseWs l) := by
  intro c hc _
  rcases mem_collapseWs l c hc with h | ⟨_, h⟩
  · exact h
  · exact absurd (by assumption) h

theorem dropTrailWs_cons (c : Char) (rest : Str) :
    dropTrailWs (c :: rest) =
      if isPySpace c = true ∧ dropTrailWs rest = [] then [] else c :: dropTrailWs rest := rfl

theorem dropWhile_sublist_self (p : Char → Bool) :
    ∀ l : Str, List.Sublist (l.dropWhile p) l := by
  intro l
  induction l with
  | nil => simp
  | cons c rest ih =>
    rw [List.dropWhile_cons]
    by_cases h : p c = true
    · rw [if_pos h]; exact ih.trans (List.sublist_cons_self c rest)
    · rw [if_neg h]

theorem dropTrailWs_sublist : ∀ l : Str, List.Sublist (dropTrailWs l) l := by
  intro l
  induction l with
  | nil => simp [dropTrailWs]
  | cons c rest ih =>
    rw [dropTrailWs_cons]
    by_cases h : isPySpace c = true ∧ dropTrailWs rest = []
    · rw [if_pos h]; exact List.nil_sublist _
    · rw [if_neg h]; exact ih.cons₂ c

theorem pyStrip_sublist (l : Str) : List.Sublist (pyStrip l) l :=
  (dropTrailWs_sublist _).trans (dropWhile_sublist_self _ l)

theorem okRunP_dropWhile (l : Str) (h : okRunP l) : okRunP (l.dropWhile isPySpace) := by
  induction l with
  | nil => trivial
  | cons c rest ih =>
    rw [List.dropWhile_cons]
    by_cases hc : isPySpace c = true
    · rw [if_pos hc]; exact ih (okRunP_tail h)
    · rw [if_neg hc]; exact h

theorem dropTrailWs_cons_head (a : Char) (r : Str) (h : dropTrailWs (a :: r) ≠ []) :
    ∃ tl, dropTrailWs (a :: r) = a :: tl := by
  rw [dropTrailWs_cons] at h ⊢
  by_cases hc : isPySpace a = true ∧ dropTrailWs r = []
  · rw [if_pos hc] at h; exact absurd rfl h
  · rw [if_neg hc]; exact ⟨dropTrailWs r, rfl⟩

theorem okRunP_dropTrailWs (l : Str) (h : okRunP l) : okRunP (dropTrailWs l) := by
  induction l with
  | nil => trivial
  | cons c rest ih =>
    rw [dropTrailWs_cons]
    by_cases hc : isPySpace c = true ∧ dropTrailWs rest = []
    · rw [if_pos hc]; trivial
    · rw [if_neg hc]
      rcases hdt : dropTrailWs rest with _ | ⟨x, tl⟩
      · trivial
      · refine ⟨?_, hdt ▸ ih (okRunP_tail h)⟩
        intro ⟨h1, h2⟩
        rcases rest with _ | ⟨y, rest'⟩
        · simp [dropTrailWs] at hdt
        · obtain ⟨tl', htl'⟩ := dropTrailWs_cons_head y rest' (by rw [hdt]; simp)
          rw [htl'] at hdt
          injection hdt with hy _
          subst hy
          exact h.1 ⟨h1, h2⟩

theorem lastNotWsP_dropTrailWs (l : Str) : lastNotWsP (dropTrailWs l) := by
  induction l with
  | nil => trivial
  | cons c rest ih =>
    rw [dropTrailWs_cons]
    by_cases hc : isPySpace c = true ∧ dropTrailWs rest = []
    · rw [if_pos hc]; trivial
    · rw [if_neg hc]
      rcases hdt : dropTrailWs rest with _ | ⟨x, tl⟩
      · show lastNotWsP [c]
        intro hws
        exact hc ⟨hws, hdt⟩
      · show lastNotWsP (c :: x :: tl)
        rw [show lastNotWsP (c :: x :: tl) = lastNotWsP (x :: tl) from rfl, ← hdt]
        exact ih

theorem headNotWsP_dropWhile (l : Str) : headNotWsP (l.dropWhile isPySpace) := by
  induction l with
  | nil => trivial
  | cons c rest ih =>
    rw [List.dropWhile_cons]
    by_cases hc : isPySpace c = true
    · rw [if_pos hc]; exact ih
    · rw [if_neg hc]; exact hc

theorem headNotWsP_dropTrailWs (l : Str) (h : headNotWsP l) :
    headNotWsP (dropTrailWs l) := by
  cases l with
  | nil => trivial
  | cons c rest =>
    rw [dropTrailWs_cons]
    by_cases hc : isPySpace c = true ∧ dropTrailWs rest = []
    · rw [if_pos hc]; trivial
    · rw [if_neg hc]; exact h

/-- Whatever the input, a final collapse-and-strip yields whitespace normal
form. -/
theorem spaceNormalP_strip_collapse (l : Str) : spaceNormalP (pyStrip (collapseWs l)) := by
  refine ⟨?_, ?_, ?_, ?_⟩
  · intro c hc hw
    exact wsOnlySpaceP_collapseWs l c ((pyStrip_sublist _).mem hc) hw
  · exact okRunP_dropTrailWs _ (okRunP_dropWhile _ (okRunP_collapseWs l))
  · exact headNotWsP_dropTrailWs _ (headNotWsP_dropWhile _)
  · exact lastNotWsP_dropTrailWs _

theorem collapseWs_eq_self : ∀ l : Str, wsOnlySpaceP l → okRunP l → collapseWs l = l
  | [], _, _ => rfl
  | [c], hws, _ => by
    by_cases h : isPySpace c = true
    · simp [collapseWs, h, hws c (by simp) h]
    · simp [collapseWs, h]
  | c :: d :: rest, hws, hok => by
    have hrec := collapseWs_eq_self (d :: rest)
      (fun x hx h => hws x (List.mem_cons_of_mem _ hx) h) (okRunP_tail hok)
    by_cases hc : isPySpace c = true
    · have hd2 : ¬ isPySpace d = true := fun hd => hok.1 ⟨hc, hd⟩
      rw [show collapseWs (c :: d :: rest) = ' ' :: collapseWs (d :: rest) by
        simp [collapseWs, hc, hd2]]
      rw [hrec, hws c (by simp) hc]
    · rw [show collapseWs (c :: d :: rest) = c :: collapseWs (d :: rest) by
        simp [collapseWs, hc]]
      rw [hrec]

theorem sanitizeChars_eq_self (l : Str) (h : ∀ c ∈ l, allowedChar c = true) :
    sanitizeChars l = l := by
  induction l with
  | nil => rfl
  | cons c rest ih =>
    show (if allowedChar c = true then c else ' ') :: sanitizeChars rest = c :: rest
    rw [if_pos (h c (by simp)), ih (fun x hx => h x (List.mem_cons_of_mem _ hx))]

theorem dropTrailWs_eq_self : ∀ l : Str, lastNotWsP l → dropTrailWs l = l
  | [], _ => rfl
  | [c], h => by
    rw [dropTrailWs_cons]
    rw [if_neg (fun hc => h hc.1)]
    rfl
  | c :: d :: rest, h => by
    rw [dropTrailWs_cons]
    have hrec := dropTrailWs_eq_self (d :: rest) h
    rw [hrec]
    rw [if_neg (fun hc => by cases hc.2)]

theorem pyStrip_eq_self (l : Str) (h1 : headNotWsP l) (h2 : lastNotWsP l) :
    pyStrip l = l := by
  unfold pyStrip
  have hd : l.dropWhile isPySpace = l := by
    cases l with
    | nil => rfl
    | cons c rest => rw [List.dropWhile_cons, if_neg h1]
  rw [hd, dropTrailWs_eq_self l h2]

theorem clean_text_eq_self (l : Str) (hsn : spaceNormalP l)
    (hall : ∀ c ∈ l, allowedChar c = true) : clean_text l = l := by
  obtain ⟨hws, hok, hhd, htl⟩ := hsn
  unfold clean_text
  rw [collapseWs_eq_self l hws hok, sanitizeChars_eq_self l hall,
    collapseWs_eq_self l hws hok, pyStrip_eq_self l hhd htl]

theorem subDelF_sublist (m : Str → Option Nat) :
    ∀ (fuel : Nat) (l : Str), List.Sublist (subDelF m fuel l) l
  | _, [] => by simp [subDelF]
  | 0, c :: rest => by simp [subDelF]
  | fuel + 1, c :: rest => by
    rw [show subDelF m (fuel + 1) (c :: rest) =
      (match m (c :: rest) with
      | some (n + 1) => subDelF m fuel (rest.drop n)
      | _ => c :: subDelF m fuel rest) from rfl]
    rcases m (c :: rest) with _ | n
    · exact (subDelF_sublist m fuel rest).cons₂ c
    · rcases n with _ | n
      · exact (subDelF_sublist m fuel rest).cons₂ c
      · exact ((subDelF_sublist m fuel (rest.drop n)).trans
          (List.drop_sublist n rest)).trans (List.sublist_cons_self c rest)

theorem subDel_sublist (m : Str → Option Nat) (l : Str) :
    List.Sublist (subDel m l) l := subDelF_sublist m l.length l

theorem spaceNormalP_clean_text (t : Str) : spaceNormalP (clean_text t) :=
  spaceNormalP_strip_collapse _

theorem allowed_mem_clean_text (t : Str) : ∀ c ∈ clean_text t, allowedChar c = true := by
  intro c hc
  have hc1 := (pyStrip_sublist _).mem hc
  rcases mem_collapseWs _ c hc1 with rfl | ⟨hc2, -⟩
  · decide
  · unfold sanitizeChars at hc2
    rcases List.mem_map.mp hc2 with ⟨a, -, ha2⟩
    by_cases h : allowedChar a = true
    · rw [if_pos h] at ha2; exact ha2 ▸ h
    · rw [if_neg h] at ha2; exact ha2 ▸ (by decide)

theorem spaceNormalP_remove_citations (t : Str) : spaceNormalP (remove_citations t) :=
  spaceNormalP_strip_collapse _

theorem allowed_mem_remove_citations (t : Str) (h : ∀ c ∈ t, allowedChar c = true) :
    ∀ c ∈ remove_citations t, allowedChar c = true := by
  intro c hc
  have hc1 := (pyStrip_sublist _).mem hc
  rcases mem_collapseWs _ c hc1 with rfl | ⟨hc2, -⟩
  · decide
  · exact h c ((subDel_sublist _ _).mem ((subDel_sublist _ _).mem
      ((subDel_sublist _ _).mem hc2)))

theorem spaceNormalP_preprocess (title abstract content : Str) :
    spaceNormalP (preprocess_paper_content title abstract content) :=
  spaceNormalP_remove_citations _

theorem allowed_mem_preprocess (title abstract content : Str) :
    ∀ c ∈ preprocess_paper_content title abstract content, allowedChar c = true :=
  allowed_mem_remove_citations _ (allowed_mem_clean_text _)

theorem newline_not_mem_of_wsOnly (l : Str) (h : wsOnlySpaceP l) :
    '\n' ∉ l ∧ '\r' ∉ l := by
  constructor
  · intro hm
    have := h '\n' hm (by decide)
    cases this
  · intro hm
    have := h '\r' hm (by decide)
    cases this

theorem matchParaSep_none (c : Char) (rest : Str) (h1 : c ≠ '\n') (h2 : c ≠ '\r') :
    matchParaSep (c :: rest) = none := by
  unfold matchParaSep
  split
  · rename_i heq; injection heq with hc; exact absurd hc h1
  · rename_i heq; injection heq with hc; exact absurd hc h2
  · rfl

theorem paraSplitF_no_newline :
    ∀ (fuel : Nat) (acc l : Str), l.length ≤ fuel → '\n' ∉ l → '\r' ∉ l →
      paraSplitF fuel acc l = [acc.reverse ++ l]
  | _, acc, [], _, _, _ => by simp [paraSplitF]
  | 0, acc, c :: rest, hf, _, _ => by simp at hf
  | fuel + 1, acc, c :: rest, hf, hn, hr => by
    rw [show paraSplitF (fuel + 1) acc (c :: rest) =
      (match matchParaSep (c :: rest) with
      | some (n + 1) => acc.reverse :: paraSplitF fuel [] (rest.drop n)
      | _ => paraSplitF fuel (c :: acc) rest) from rfl]
    rw [matchParaSep_none c rest (fun h => hn (h ▸ List.mem_cons_self _ _))
      (fun h => hr (h ▸ List.mem_cons_self _ _))]
    rw [paraSplitF_no_newline fuel (c :: acc) rest (by simpa using hf)
      (fun h => hn (List.mem_cons_of_mem _ h)) (fun h => hr (List.mem_cons_of_mem _ h))]
    simp

theorem pySplitParas_single (l : Str) (hn : '\n' ∉ l) (hr : '\r' ∉ l) :
    pySplitParas l = [l] := by
  unfold pySplitParas
  rw [paraSplitF_no_newline l.length [] l le_rfl hn hr]
  simp

/-- For a whitespace-normal, allowed-characters text (as `preprocess` always
produces), paragraph extraction yields the whole text when it is longer than
50 characters, and nothing otherwise. -/
theorem extract_paragraphs_eq (t : Str) (hsn : spaceNormalP t)
    (hall : ∀ c ∈ t, allowedChar c = true) :
    extract_paragraphs t = if 50 < t.length then [t] else [] := by
  obtain ⟨hnl, hcr⟩ := newline_not_mem_of_wsOnly t hsn.1
  unfold extract_paragraphs
  rw [pySplitParas_single t hnl hcr]
  rw [show List.filterMap _ [t] = _ from List.filterMap_cons _ t []]
  rw [clean_text_eq_self t hsn hall]
  by_cases h50 : 50 < t.length
  · have hne : t ≠ [] := by
      intro h
      rw [h] at h50
      simp at h50
    rw [if_pos ⟨hne, h50⟩, if_pos h50]
    simp
  · rw [if_neg (fun hc => h50 hc.2), if_neg h50]
    simp

theorem extract_paragraphs_preprocess (p : Paper) :
    extract_paragraphs (preprocessOf p) =
      if 50 < (preprocessOf p).length then [preprocessOf p] else [] :=
  extract_paragraphs_eq _ (spaceNormalP_preprocess _ _ _) (allowed_mem_preprocess _ _ _)

/-! ## C10: one paragraph, one chunk -/

/-- A single usable paragraph is emitted as a single chunk carrying the whole
paragraph as its text, whatever the chunk size. -/
theorem chunk_paper_single_para (cfg : ChunkerConfig) (p : Paper) (T : Str)
    (hex : extract_paragraphs (preprocessOf p) = [T]) (hT : T ≠ [])
    (hstrip : pyStrip T = T) :
    ∃ s, chunk_paper cfg p = some [_create_chunk p T s (s + T.length)] := by
  have hstep : paraStep cfg p ⟨[], [], 0⟩ T =
      if T.length + 2 ≤ cfg.chunk_size then (⟨[], T, 0⟩ : ParaState)
      else ⟨[], T, T.length⟩ := by
    unfold paraStep
    simp only [List.length_nil, Nat.zero_add]
    by_cases hfits : T.length + 2 ≤ cfg.chunk_size
    · rw [if_pos hfits, if_pos hfits]
      simp
    · rw [if_neg hfits, if_neg hfits]
      have h1 : pyStrip ([] : Str) = [] := rfl
      simp [h1]
  simp only [chunk_paper, hex]
  rw [if_neg (by simp : ¬ ([T] : List Str) = [])]
  rw [List.foldl_cons, List.foldl_nil, hstep]
  by_cases hfits : T.length + 2 ≤ cfg.chunk_size
  · rw [if_pos hfits]
    dsimp only
    rw [hstrip, if_neg hT]
    exact ⟨0, rfl⟩
  · rw [if_neg hfits]
    dsimp only
    rw [hstrip, if_neg hT]
    exact ⟨T.length, rfl⟩

/-- C10: preprocessing collapses all whitespace (including the blank-line
separators it inserts itself) to single spaces, so a paper whose preprocessed
text exceeds 50 characters forms exactly one usable paragraph, and
`chunk_paper` returns exactly one chunk whose text is the entire preprocessed
text — regardless of `chunk_size`. -/
theorem c10_single_chunk (cfg : ChunkerConfig) (p : Paper)
    (h50 : 50 < (preprocessOf p).length) :
    ∃ c, chunk_paper cfg p = some [c] ∧ c.text = preprocessOf p := by
  obtain ⟨T, hTd⟩ : ∃ T, preprocessOf p = T := ⟨_, rfl⟩
  have hsn : spaceNormalP T := by
    rw [← hTd]
    exact spaceNormalP_preprocess p.title p.abstract (p.content.getD [])
  rw [hTd] at h50
  have hex : extract_paragraphs (preprocessOf p) = [T] := by
    rw [extract_paragraphs_preprocess p, hTd, if_pos h50]
  have hT : T ≠ [] := by
    intro h; rw [h] at h50; simp at h50
  have hstrip : pyStrip T = T := pyStrip_eq_self T hsn.2.2.1 hsn.2.2.2
  rw [hTd]
  obtain ⟨s, hs⟩ := chunk_paper_single_para cfg p T hex hT hstrip
  exact ⟨_, hs, rfl⟩

/-! ## Structure of the chunk lists produced by `chunk_paper` -/

theorem chunk_paper_fallback (cfg : ChunkerConfig) (p : Paper) (T : Str)
    (hTd : preprocessOf p = T) (hfb : extract_paragraphs T = []) :
    chunk_paper cfg p = _simple_chunk cfg p T := by
  simp only [chunk_paper, hTd, hfb]
  rw [if_pos trivial]

theorem pairwise_filterMap_start {α : Type _} (f : Nat → Option α) (g : α → Nat)
    (hf : ∀ i c, f i = some c → g c = i) :
    ∀ l : List Nat, l.Pairwise (· < ·) → ((l.filterMap f).map g).Pairwise (· < ·) := by
  intro l
  induction l with
  | nil => intro _; simp
  | cons i rest ih =>
    intro hp
    rcases List.pairwise_cons.mp hp with ⟨hlt, hrest⟩
    rw [List.filterMap_cons]
    rcases hfi : f i with _ | c
    · exact ih hrest
    · rw [List.map_cons]
      refine List.pairwise_cons.mpr ⟨?_, ih hrest⟩
      intro x hx
      rcases List.mem_map.mp hx with ⟨c', hc', rfl⟩
      rcases List.mem_filterMap.mp hc' with ⟨i', hi', hfi'⟩
      rw [hf i c hfi, hf i' c' hfi']
      exact hlt i' hi'

theorem pyRangeBy_pairwise (stop step : Nat) (hstep : 0 < step) :
    (pyRangeBy stop step).Pairwise (· < ·) := by
  unfold pyRangeBy
  refine List.Pairwise.map _ ?_ (List.pairwise_lt_range _)
  intro a b hab
  exact (Nat.mul_lt_mul_right hstep).mpr hab

theorem _simple_chunk_props (cfg : ChunkerConfig) (p : Paper) (text : Str)
    (cs : List Chunk) (h : _simple_chunk cfg p text = some cs) :
    (∀ c ∈ cs, c.text ≠ [] ∧ c.end_char = c.start_char + c.text.length ∧
      c.chunk_id = chunkIdOf (paperIdOf p) c.start_char c.end_char ∧
      c.text = (text.drop c.start_char).take cfg.chunk_size) ∧
    (cs.map (fun c => c.start_char)).Pairwise (· < ·) := by
  unfold _simple_chunk at h
  by_cases heq : cfg.chunk_size = cfg.chunk_overlap
  · rw [if_pos heq] at h; cases h
  rw [if_neg heq] at h
  by_cases hlt : cfg.chunk_size < cfg.chunk_overlap
  · rw [if_pos hlt] at h
    obtain rfl : ([] : List Chunk) = cs := Option.some.inj h
    exact ⟨by simp, by simp⟩
  rw [if_neg hlt] at h
  obtain rfl := (Option.some.inj h).symm
  constructor
  · intro c hc
    rcases List.mem_filterMap.mp hc with ⟨i, -, hfi⟩
    dsimp only at hfi
    by_cases hstr : pyStrip ((text.drop i).take cfg.chunk_size) = []
    · rw [if_pos hstr] at hfi; cases hfi
    · rw [if_neg hstr] at hfi
      obtain rfl := (Option.some.inj hfi).symm
      refine ⟨?_, rfl, rfl, rfl⟩
      intro hnil
      exact hstr (by rw [show ((text.drop i).take cfg.chunk_size) = [] from hnil]; rfl)
  · refine pairwise_filterMap_start _ _ ?_ _
      (pyRangeBy_pairwise _ _ (by omega))
    intro i c hfi
    dsimp only at hfi
    by_cases hstr : pyStrip ((text.drop i).take cfg.chunk_size) = []
    · rw [if_pos hstr] at hfi; cases hfi
    · rw [if_neg hstr] at hfi
      obtain rfl := (Option.some.inj hfi).symm
      rfl

/-- Either fallback mode (unusably short text) or a single paragraph-mode
chunk: the two shapes a `chunk_paper` run can produce. -/
theorem chunk_paper_shape (cfg : ChunkerConfig) (p : Paper) :
    (∃ T, preprocessOf p = T ∧ extract_paragraphs T = [] ∧
      chunk_paper cfg p = _simple_chunk cfg p T) ∨
    (∃ T s, preprocessOf p = T ∧ T ≠ [] ∧
      chunk_paper cfg p = some [_create_chunk p T s (s + T.length)]) := by
  obtain ⟨T, hTd⟩ : ∃ T, preprocessOf p = T := ⟨_, rfl⟩
  have hsn : spaceNormalP T := by
    rw [← hTd]
    exact spaceNormalP_preprocess p.title p.abstract (p.content.getD [])
  have hall : ∀ c ∈ T, allowedChar c = true := by
    rw [← hTd]
    exact allowed_mem_preprocess p.title p.abstract (p.content.getD [])
  have hext : extract_paragraphs T = if 50 < T.length then [T] else [] :=
    extract_paragraphs_eq T hsn hall
  by_cases h50 : 50 < T.length
  · right
    have hex : extract_paragraphs (preprocessOf p) = [T] := by
      rw [hTd, hext, if_pos h50]
    have hT : T ≠ [] := by
      intro hnil; rw [hnil] at h50; simp at h50
    have hstrip : pyStrip T = T := pyStrip_eq_self T hsn.2.2.1 hsn.2.2.2
    obtain ⟨s, hs⟩ := chunk_paper_single_para cfg p T hex hT hstrip
    exact ⟨T, s, hTd, hT, hs⟩
  · left
    exact ⟨T, hTd, by rw [hext, if_neg h50], chunk_paper_fallback cfg p T hTd
      (by rw [hext, if_neg h50])⟩

theorem chunk_paper_props (cfg : ChunkerConfig) (p : Paper) (cs : List Chunk)
    (h : chunk_paper cfg p = some cs) :
    ∀ c ∈ cs, c.text ≠ [] ∧ c.end_char = c.start_char + c.text.length ∧
      c.chunk_id = chunkIdOf (paperIdOf p) c.start_char c.end_char := by
  rcases chunk_paper_shape cfg p with ⟨T, hTd, hfb, heq⟩ | ⟨T, s, hTd, hT, heq⟩
  · rw [heq] at h
    intro c hc
    obtain ⟨h1, h2, h3, -⟩ := (_simple_chunk_props cfg p T cs h).1 c hc
    exact ⟨h1, h2, h3⟩
  · rw [heq] at h
    obtain rfl := Option.some.inj h
    intro c hc
    rw [List.mem_singleton] at hc
    subst hc
    exact ⟨hT, rfl, rfl⟩

theorem chunk_paper_starts (cfg : ChunkerConfig) (p : Paper) (cs : List Chunk)
    (h : chunk_paper cfg p = some cs) :
    (cs.map (fun c => c.start_char)).Pairwise (· < ·) := by
  rcases chunk_paper_shape cfg p with ⟨T, hTd, hfb, heq⟩ | ⟨T, s, hTd, hT, heq⟩
  · rw [heq] at h
    exact (_simple_chunk_props cfg p T cs h).2
  · rw [heq] at h
    obtain rfl := Option.some.inj h
    simp

/-! ## C2: chunk offsets -/

/-- Amended C2: every chunk satisfies `0 ≤ start_char < end_char` and
`end_char - start_char = len(text)`; in fallback mode the chunk text occurs in
the preprocessed text exactly at `[start_char, end_char)`. (In paragraph mode
the declared offsets can miss the text, as the counterexample shows.) -/
theorem c2_chunk_range_amended (cfg : ChunkerConfig) (p : Paper) (cs : List Chunk)
    (hcs : chunk_paper cfg p = some cs) :
    (∀ c ∈ cs, c.start_char < c.end_char ∧ c.end_char = c.start_char + c.text.length) ∧
    (extract_paragraphs (preprocessOf p) = [] →
      ∀ c ∈ cs, ((preprocessOf p).drop c.start_char).take (c.end_char - c.start_char) =
        c.text) := by
  constructor
  · intro c hc
    obtain ⟨h1, h2, -⟩ := chunk_paper_props cfg p cs hcs c hc
    have hpos : 0 < c.text.length := List.length_pos.mpr h1
    exact ⟨by omega, h2⟩
  · intro hfb c hc
    have hsc : _simple_chunk cfg p (preprocessOf p) = some cs := by
      rw [← chunk_paper_fallback cfg p (preprocessOf p) rfl hfb]
      exact hcs
    obtain ⟨h1, h2, h3, h4⟩ := (_simple_chunk_props cfg p _ cs hsc).1 c hc
    rw [h2, Nat.add_sub_cancel_left, h4, List.length_take]
    rcases Nat.le_total cfg.chunk_size ((preprocessOf p).drop c.start_char).length with
      hle | hle
    · rw [Nat.min_eq_left hle]
    · rw [Nat.min_eq_right hle, List.take_length, List.take_of_length_le hle]

theorem c2_chunk_range_amended_witness :
    chunk_paper {} paperTiny =
      some [_create_chunk paperTiny (preprocessOf paperTiny) 0 20] ∧
    ((∀ c ∈ [_create_chunk paperTiny (preprocessOf paperTiny) 0 20],
        c.start_char < c.end_char ∧ c.end_char = c.start_char + c.text.length) ∧
      (extract_paragraphs (preprocessOf paperTiny) = [] →
        ∀ c ∈ [_create_chunk paperTiny (preprocessOf paperTiny) 0 20],
          ((preprocessOf paperTiny).drop c.start_char).take
            (c.end_char - c.start_char) = c.text)) :=
  ⟨by decide, c2_chunk_range_amended {} paperTiny _ (by decide)⟩

set_option maxRecDepth 8000 in
theorem c10_single_chunk_witness :
    50 < (preprocessOf paperA).length ∧
    (∃ c, chunk_paper { chunk_size := 100, chunk_overlap := 20 } paperA = some [c] ∧
      c.text = preprocessOf paperA) :=
  ⟨by decide, c10_single_chunk { chunk_size := 100, chunk_overlap := 20 } paperA (by decide)⟩

/-! ## C9: chunk-id uniqueness -/

theorem digitChar_ne_underscore (d : Nat) : digitChar d ≠ '_' := by
  unfold digitChar
  split <;> decide

theorem digitVal_digitChar (d : Nat) (h : d < 10) : digitVal (digitChar d) = d := by
  interval_cases d <;> decide

theorem valRev_natDigitsRev (fuel : Nat) :
    ∀ n, n ≤ fuel → valRev (natDigitsRev fuel n) = n := by
  induction fuel with
  | zero =>
    intro n hn
    have h0 : n = 0 := Nat.le_zero.mp hn
    subst h0
    rfl
  | succ fuel ih =>
    intro n hn
    by_cases h0 : n = 0
    · subst h0; rfl
    · have hdiv : n / 10 ≤ fuel := by
        have : n / 10 < n := Nat.div_lt_self (Nat.pos_of_ne_zero h0) (by norm_num)
        omega
      simp only [natDigitsRev, if_neg h0, valRev]
      rw [ih _ hdiv, digitVal_digitChar _ (Nat.mod_lt _ (by norm_num))]
      exact Nat.mod_add_div n 10

theorem valRev_reverse_natDigits (n : Nat) : valRev (natDigits n).reverse = n := by
  by_cases h0 : n = 0
  · subst h0; rfl
  · simp only [natDigits, if_neg h0, List.reverse_reverse]
    exact valRev_natDigitsRev n n le_rfl

theorem natDigits_inj (m n : Nat) (h : natDigits m = natDigits n) : m = n := by
  have hm := valRev_reverse_natDigits m
  rw [h, valRev_reverse_natDigits] at hm
  exact hm.symm

theorem mem_natDigitsRev (fuel : Nat) :
    ∀ n c, c ∈ natDigitsRev fuel n → ∃ d, c = digitChar d := by
  induction fuel with
  | zero => intro n c hc; simp [natDigitsRev] at hc
  | succ fuel ih =>
    intro n c hc
    by_cases h0 : n = 0
    · rw [h0] at hc; simp [natDigitsRev] at hc
    · simp only [natDigitsRev, if_neg h0, List.mem_cons] at hc
      rcases hc with rfl | hc
      · exact ⟨n % 10, rfl⟩
      · exact ih _ _ hc

theorem underscore_not_mem_natDigits (n : Nat) : '_' ∉ natDigits n := by
  intro hmem
  by_cases h0 : n = 0
  · rw [h0] at hmem; revert hmem; decide
  · simp only [natDigits, if_neg h0, List.mem_reverse] at hmem
    obtain ⟨d, hd⟩ := mem_natDigitsRev n n '_' hmem
    exact digitChar_ne_underscore d hd.symm

theorem underscore_split (a : Str) :
    ∀ (c b d : Str), '_' ∉ a → '_' ∉ c →
      a ++ '_' :: b = c ++ '_' :: d → a = c ∧ b = d := by
  induction a with
  | nil =>
    intro c b d _ hc h
    cases c with
    | nil => simpa using h
    | cons y cs =>
      simp only [List.nil_append, List.cons_append, List.cons.injEq] at h
      obtain ⟨h1, -⟩ := h
      subst h1
      exact absurd (List.mem_cons_self _ _) hc
  | cons x xs ih =>
    intro c b d ha hc h
    cases c with
    | nil =>
      simp only [List.nil_append, List.cons_append, List.cons.injEq] at h
      obtain ⟨rfl, -⟩ := h
      exact absurd (List.mem_cons_self _ _) ha
    | cons y cs =>
      simp only [List.cons_append, List.cons.injEq] at h
      obtain ⟨rfl, h2⟩ := h
      have ha' : '_' ∉ xs := fun hm => ha (List.mem_cons_of_mem _ hm)
      have hc' : '_' ∉ cs := fun hm => hc (List.mem_cons_of_mem _ hm)
      obtain ⟨rfl, rfl⟩ := ih cs b d ha' hc' h2
      exact ⟨rfl, rfl⟩

theorem chunkIdOf_inj (pid pid' : Str) (s e s' e' : Nat)
    (h : chunkIdOf pid s e = chunkIdOf pid' s' e') :
    pid = pid' ∧ s = s' ∧ e = e' := by
  have hr := congrArg List.reverse h
  simp only [chunkIdOf, List.reverse_append, List.reverse_cons, List.append_assoc,
    List.singleton_append] at hr
  have he : '_' ∉ (natDigits e).reverse := fun hm =>
    underscore_not_mem_natDigits e (List.mem_reverse.mp hm)
  have he' : '_' ∉ (natDigits e').reverse := fun hm =>
    underscore_not_mem_natDigits e' (List.mem_reverse.mp hm)
  obtain ⟨h1, h2⟩ := underscore_split _ _ _ _ he he' hr
  simp only [List.append_eq, List.append_assoc, List.singleton_append] at h2
  have hs : '_' ∉ (natDigits s).reverse := fun hm =>
    underscore_not_mem_natDigits s (List.mem_reverse.mp hm)
  have hs' : '_' ∉ (natDigits s').reverse := fun hm =>
    underscore_not_mem_natDigits s' (List.mem_reverse.mp hm)
  obtain ⟨h3, h4⟩ := underscore_split _ _ _ _ hs hs' h2
  refine ⟨List.reverse_injective h4, ?_, ?_⟩
  · exact natDigits_inj _ _ (List.reverse_injective h3)
  · exact natDigits_inj _ _ (List.reverse_injective h1)

theorem chunk_paper_ids_nodup (cfg : ChunkerConfig) (p : Paper) (cs : List Chunk)
    (h : chunk_paper cfg p = some cs) :
    (cs.map (fun c => c.chunk_id)).Nodup := by
  have hst := chunk_paper_starts cfg p cs h
  rw [List.pairwise_map] at hst
  have hpw : cs.Pairwise (fun a b => a.chunk_id ≠ b.chunk_id) := by
    refine hst.imp_of_mem ?_
    intro a b ha hb hlt heq
    obtain ⟨-, -, hida⟩ := chunk_paper_props cfg p cs h a ha
    obtain ⟨-, -, hidb⟩ := chunk_paper_props cfg p cs h b hb
    rw [hida, hidb] at heq
    obtain ⟨-, h2, -⟩ := chunkIdOf_inj _ _ _ _ _ _ heq
    omega
  refine List.Pairwise.map (fun c : Chunk => c.chunk_id) ?_ hpw
  intro a b hab
  exact hab

theorem chunk_ids_getD_nodup (cfg : ChunkerConfig) (p : Paper) :
    (((chunk_paper cfg p).getD []).map (fun c => c.chunk_id)).Nodup := by
  rcases hcp : chunk_paper cfg p with - | cs
  · simp
  · simpa using chunk_paper_ids_nodup cfg p cs hcp

theorem chunk_id_form_getD (cfg : ChunkerConfig) (p : Paper) :
    ∀ c ∈ (chunk_paper cfg p).getD [],
      c.chunk_id = chunkIdOf (paperIdOf p) c.start_char c.end_char := by
  rcases hcp : chunk_paper cfg p with - | cs
  · intro c hc; simp at hc
  · intro c hc
    simp only [Option.getD_some] at hc
    exact (chunk_paper_props cfg p cs hcp c hc).2.2

theorem foldl_append_eq_flatten {α β : Type} (f : α → List β) (l : List α) :
    ∀ init : List β,
      l.foldl (fun acc p => acc ++ f p) init = init ++ (l.map f).flatten := by
  induction l with
  | nil => intro init; simp
  | cons x xs ih =>
    intro init
    simp only [List.foldl_cons, List.map_cons, List.flatten_cons, ih, List.append_assoc]

theorem chunk_multiple_papers_eq_flatten (cfg : ChunkerConfig) (papers : List Paper) :
    chunk_multiple_papers cfg papers =
      (papers.map (fun p => (chunk_paper cfg p).getD [])).flatten := by
  simp only [chunk_multiple_papers]
  simpa using foldl_append_eq_flatten (fun p => (chunk_paper cfg p).getD []) papers []

/-- Amended C9: chunk ids have the shape `{paper_id}_{start}_{end}`, and they
are globally unique PROVIDED the papers' fallback identifiers are pairwise
distinct. When two papers share the identifier string — in particular when
neither has an `arxiv_id` or `pubmed_id`, so both ids render as `"None"` —
equal offsets produce colliding ids (see the counterexample). -/
theorem c9_chunk_ids_unique_amended (cfg : ChunkerConfig) (papers : List Paper)
    (h : (papers.map paperIdOf).Nodup) :
    ((chunk_multiple_papers cfg papers).map (fun c => c.chunk_id)).Nodup := by
  rw [chunk_multiple_papers_eq_flatten, List.map_flatten, List.map_map]
  rw [List.nodup_flatten]
  constructor
  · intro l hl
    rw [List.mem_map] at hl
    obtain ⟨p, -, rfl⟩ := hl
    simpa [Function.comp] using chunk_ids_getD_nodup cfg p
  · rw [List.pairwise_map]
    have hpw : papers.Pairwise (fun p q => paperIdOf p ≠ paperIdOf q) :=
      List.pairwise_map.mp h
    refine hpw.imp_of_mem ?_
    intro p q hp hq hne
    intro id hidp hidq
    obtain ⟨c, hc, hcid⟩ := List.mem_map.mp hidp
    obtain ⟨c', hc', hc'id⟩ := List.mem_map.mp hidq
    have h1 : c.chunk_id = chunkIdOf (paperIdOf p) c.start_char c.end_char :=
      chunk_id_form_getD cfg p c hc
    have h2 : c'.chunk_id = chunkIdOf (paperIdOf q) c'.start_char c'.end_char :=
      chunk_id_form_getD cfg q c' hc'
    have hcc : c.chunk_id = c'.chunk_id := hcid.trans hc'id.symm
    have heq : chunkIdOf (paperIdOf p) c.start_char c.end_char =
        chunkIdOf (paperIdOf q) c'.start_char c'.end_char := by
      rw [← h1, ← h2]; exact hcc
    exact hne (chunkIdOf_inj _ _ _ _ _ _ heq).1

/-! ## C3: fallback coverage -/

theorem okRunP_drop : ∀ (l : Str), okRunP l → ∀ n, okRunP (l.drop n) := by
  intro l
  induction l with
  | nil => intro _ n; rw [List.drop_nil]; trivial
  | cons c rest ih =>
    intro h n
    cases n with
    | zero => exact h
    | succ n =>
      rw [List.drop_succ_cons]
      exact ih (okRunP_tail h) n

theorem okRunP_take : ∀ (l : Str), okRunP l → ∀ n, okRunP (l.take n) := by
  intro l
  induction l with
  | nil => intro _ n; rw [List.take_nil]; trivial
  | cons c rest ih =>
    intro h n
    cases n with
    | zero => trivial
    | succ n =>
      rw [List.take_succ_cons]
      cases rest with
      | nil => rw [List.take_nil]; trivial
      | cons d r =>
        cases n with
        | zero => trivial
        | succ n =>
          rw [List.take_succ_cons]
          refine ⟨h.1, ?_⟩
          rw [← List.take_succ_cons]
          exact ih (okRunP_tail h) (n + 1)

theorem lastNotWsP_drop_last : ∀ (l : Str) (a : Char), lastNotWsP l →
    l.drop (l.length - 1) = [a] → isPySpace a = false := by
  intro l
  induction l with
  | nil => intro a _ h; cases h
  | cons c rest ih =>
    intro a hlast hdrop
    cases rest with
    | nil =>
      simp only [List.length_cons, List.length_nil, Nat.zero_add, Nat.sub_self,
        List.drop_zero, List.cons.injEq] at hdrop
      obtain ⟨rfl, -⟩ := hdrop
      exact Bool.not_eq_true _ ▸ hlast
    | cons d r =>
      have hstep : (c :: d :: r).drop ((c :: d :: r).length - 1) =
          (d :: r).drop ((d :: r).length - 1) := by
        simp only [List.length_cons]
        rw [Nat.add_sub_cancel, Nat.add_sub_cancel, List.drop_succ_cons]
      rw [hstep] at hdrop
      exact ih a hlast hdrop

theorem pyStrip_ne_nil (l : Str) (h : ∃ c ∈ l, isPySpace c = false) :
    pyStrip l ≠ [] := by
  obtain ⟨c0, hc0, hws0⟩ := h
  have hne : l.dropWhile isPySpace ≠ [] := by
    intro hnil
    rw [List.dropWhile_eq_nil_iff] at hnil
    rw [hnil c0 hc0] at hws0
    cases hws0
  have hh := headNotWsP_dropWhile l
  unfold pyStrip
  cases hd : l.dropWhile isPySpace with
  | nil => exact absurd hd hne
  | cons c r =>
    rw [hd] at hh
    rw [dropTrailWs_cons, if_neg (fun hcon => hh hcon.1)]
    exact List.cons_ne_nil c _

theorem slice_strip_ne_nil (T : Str) (h : spaceNormalP T) (i k : Nat)
    (hi : i < T.length) (hk : 2 ≤ k) : pyStrip ((T.drop i).take k) ≠ [] := by
  obtain ⟨hws, hrun, hhead, hlast⟩ := h
  apply pyStrip_ne_nil
  rcases Nat.lt_or_ge (T.length - i) 2 with hsmall | hbig
  · have h1 : T.length - i = 1 := by omega
    have hdl : (T.drop i).length = 1 := by rw [List.length_drop]; exact h1
    obtain ⟨a, ha⟩ := List.length_eq_one.mp hdl
    have htake : (T.drop i).take k = [a] := by
      rw [ha]
      exact List.take_of_length_le (by simp only [List.length_cons, List.length_nil]; omega)
    refine ⟨a, by rw [htake]; exact List.mem_singleton_self a, ?_⟩
    have hii : i = T.length - 1 := by omega
    exact lastNotWsP_drop_last T a hlast (by rw [← hii]; exact ha)
  · have hdl : 2 ≤ (T.drop i).length := by rw [List.length_drop]; omega
    have hTne : T.drop i ≠ [] := fun hnil => by rw [hnil] at hdl; simp at hdl
    obtain ⟨c, l1, hc⟩ := List.exists_cons_of_ne_nil hTne
    have hl1ne : l1 ≠ [] := fun hnil => by rw [hc, hnil] at hdl; simp at hdl
    obtain ⟨d, l2, hd⟩ := List.exists_cons_of_ne_nil hl1ne
    rw [hd] at hc
    have hrun2 : okRunP (T.drop i) := okRunP_drop T hrun i
    rw [hc] at hrun2
    have hcd : ¬(isPySpace c = true ∧ isPySpace d = true) := hrun2.1
    obtain ⟨k2, rfl⟩ : ∃ k2, k = k2 + 2 := ⟨k - 2, by omega⟩
    rw [hc, List.take_succ_cons, List.take_succ_cons]
    by_cases hwc : isPySpace c = true
    · have hwd : isPySpace d = false := by
        cases hv : isPySpace d
        · rfl
        · exact absurd ⟨hwc, hv⟩ hcd
      exact ⟨d, List.mem_cons_of_mem _ (List.mem_cons_self _ _), hwd⟩
    · exact ⟨c, List.mem_cons_self _ _, by rwa [Bool.not_eq_true] at hwc⟩

set_option maxRecDepth 8000 in
/-- Amended C3: in fallback mode (no blank-line paragraphs), provided
`2 ≤ chunk_size` and `chunk_overlap < chunk_size`, the half-open
`[start_char, end_char)` ranges of the produced chunks cover every position of
the preprocessed text; but the spec's concrete example is off: with
`chunk_size=100, chunk_overlap=20` a 250-character text yields FOUR windows
`[0,100), [80,180), [160,250), [240,250)` — stride 80 also hits offset 240 —
not the three listed. -/
theorem c3_fallback_coverage_amended (cfg : ChunkerConfig) (p : Paper)
    (h2 : 2 ≤ cfg.chunk_size) (hov : cfg.chunk_overlap < cfg.chunk_size)
    (hfb : extract_paragraphs (preprocessOf p) = [])
    (cs : List Chunk) (hcs : chunk_paper cfg p = some cs) :
    (∀ j < (preprocessOf p).length, ∃ c ∈ cs, c.start_char ≤ j ∧ j < c.end_char) ∧
    (_simple_chunk { chunk_size := 100, chunk_overlap := 20 } paperA
        (preprocessOf paperA)).map (List.map (fun c => (c.start_char, c.end_char))) =
      some [(0, 100), (80, 180), (160, 250), (240, 250)] := by
  constructor
  · obtain ⟨T, hTd⟩ : ∃ T, preprocessOf p = T := ⟨_, rfl⟩
    rw [hTd] at hfb ⊢
    have hsn : spaceNormalP T := by
      rw [← hTd]
      exact spaceNormalP_preprocess _ _ _
    have hcp := chunk_paper_fallback cfg p T hTd hfb
    rw [hcp] at hcs
    have hne : ¬ cfg.chunk_size = cfg.chunk_overlap := by omega
    have hnlt : ¬ cfg.chunk_size < cfg.chunk_overlap := by omega
    unfold _simple_chunk at hcs
    rw [if_neg hne, if_neg hnlt] at hcs
    have hstep : 0 < cfg.chunk_size - cfg.chunk_overlap := Nat.sub_pos_of_lt hov
    obtain ⟨st, hst⟩ : ∃ st, cfg.chunk_size - cfg.chunk_overlap = st := ⟨_, rfl⟩
    rw [hst] at hcs hstep
    have hcs2 := Option.some.inj hcs
    subst hcs2
    intro j hj
    obtain ⟨q, hq⟩ : ∃ q, j / st = q := ⟨_, rfl⟩
    obtain ⟨m, hm⟩ : ∃ m, q * st = m := ⟨_, rfl⟩
    have hile : m ≤ j := by rw [← hm, ← hq]; exact Nat.div_mul_le_self _ _
    have hilt : m < T.length := lt_of_le_of_lt hile hj
    have hmod : j % st < st := Nat.mod_lt _ hstep
    have hjlt : j < m + st := by
      calc j = st * (j / st) + j % st := (Nat.div_add_mod j st).symm
        _ = m + j % st := by rw [Nat.mul_comm, hq, hm]
        _ < m + st := Nat.add_lt_add_left hmod m
    have hmem : m ∈ pyRangeBy T.length st := by
      unfold pyRangeBy
      rw [List.mem_map]
      refine ⟨q, ?_, hm⟩
      rw [List.mem_range]
      have h1 : q * st + st ≤ T.length + st - 1 := by rw [hm]; omega
      have hq2 : q + 1 ≤ (T.length + st - 1) / st := by
        rw [Nat.le_div_iff_mul_le hstep, Nat.succ_mul]
        exact h1
      omega
    have hkeep : pyStrip ((T.drop m).take cfg.chunk_size) ≠ [] :=
      slice_strip_ne_nil T hsn m cfg.chunk_size hilt h2
    have hend : j < m + ((T.drop m).take cfg.chunk_size).length := by
      rw [List.length_take, List.length_drop]
      rcases Nat.le_total cfg.chunk_size (T.length - m) with hmin | hmin
      · rw [Nat.min_eq_left hmin]
        omega
      · rw [Nat.min_eq_right hmin]
        omega
    exact ⟨_, List.mem_filterMap.mpr ⟨m, hmem, if_neg hkeep⟩, hile, hend⟩
  · decide

set_option maxRecDepth 8000 in
theorem c3_fallback_coverage_amended_witness :
    2 ≤ ({} : ChunkerConfig).chunk_size ∧
    ({} : ChunkerConfig).chunk_overlap < ({} : ChunkerConfig).chunk_size ∧
    extract_paragraphs (preprocessOf paperTiny) = [] ∧
    chunk_paper {} paperTiny =
      some [_create_chunk paperTiny (preprocessOf paperTiny) 0 20] ∧
    ((∀ j < (preprocessOf paperTiny).length,
        ∃ c ∈ [_create_chunk paperTiny (preprocessOf paperTiny) 0 20],
          c.start_char ≤ j ∧ j < c.end_char) ∧
      (_simple_chunk { chunk_size := 100, chunk_overlap := 20 } paperA
          (preprocessOf paperA)).map
          (List.map (fun c => (c.start_char, c.end_char))) =
        some [(0, 100), (80, 180), (160, 250), (240, 250)]) :=
  ⟨by decide, by decide, by decide, by decide,
    c3_fallback_coverage_amended {} paperTiny (by decide) (by decide) (by decide) _
      (by decide)⟩

theorem c9_chunk_ids_unique_amended_witness :
    (([paperIdX, paperIdY].map paperIdOf).Nodup) ∧
    ((chunk_multiple_papers {} [paperIdX, paperIdY]).map
      (fun c => c.chunk_id)).Nodup :=
  ⟨by decide, c9_chunk_ids_unique_amended {} [paperIdX, paperIdY] (by decide)⟩

end ReSynth
